import Mathlib

/-!
Verification of the core of the `twitch_chat_logger` repository: the IRC wire
codec (`twitch-irc_local/src/message/mod.rs`) and the per-connection lifecycle
state machine (`twitch-irc_local/src/connection/event_loop.rs`).

Strings are embedded as `List Char`. Rust's `str::split_once`, `splitn(2, _)`
and `split` are embedded as `splitOnce`, `splitFirst` and `splitOnChar` below.

The tag codec (`message/tags.rs`), the prefix codec (`message/prefix.rs`), the
error enum (`error.rs`), the login credentials pair (`login.rs`), the pool
notification enum (`connection/mod.rs`) and the `ServerMessage` interpretation
(`message/commands/*`) are not part of the published sources; they are
modelled from the specification, as marked on each such definition.
-/

set_option maxRecDepth 8000

deriving instance DecidableEq for Except

/-- The characters of a string literal, used to write concrete inputs. -/
def cs (s : String) : List Char := s.toList

/-! ## List splitting utilities (Rust `str` methods on `List Char`) -/

/-- Rust `str::split_once(sep)`: split at the first occurrence of `sep`,
returning the parts before and after it, or `none` if `sep` does not occur. -/
def splitOnce (sep : Char) : List Char → Option (List Char × List Char)
  | [] => none
  | c :: rest =>
    if c = sep then some ([], rest)
    else
      match splitOnce sep rest with
      | none => none
      | some (a, b) => some (c :: a, b)

/-- Rust `str::splitn(2, sep)`: the token before the first `sep`, and the
optional remainder after it. -/
def splitFirst (sep : Char) (l : List Char) : List Char × Option (List Char) :=
  match splitOnce sep l with
  | none => (l, none)
  | some (a, b) => (a, some b)

/-- Rust `str::split(sep)`: all chunks between occurrences of `sep`.
Never returns the empty list. -/
def splitOnChar (sep : Char) : List Char → List (List Char)
  | [] => [[]]
  | c :: rest =>
    if c = sep then [] :: splitOnChar sep rest
    else
      match splitOnChar sep rest with
      | [] => [[c]]
      | a :: more => (c :: a) :: more

/-- Join chunks with a single separator character between them. -/
def joinSep (sep : Char) : List (List Char) → List Char
  | [] => []
  | [a] => a
  | a :: rest => a ++ sep :: joinSep sep rest

/-! ## Tag-value escaping (spec §4.1)

`message/tags.rs` is not among the published sources; the functions in this
section are modelled from the spec's escape table:
escape → literal: `\\`→`\`, `\:`→`;`, `\s`→space, `\r`→CR, `\n`→LF; a
trailing lone backslash is dropped. The spec leaves other `\c` pairs open; we
model them as decoding to `c`, consistent with the lenient handling of the
trailing lone backslash. -/

/-- Modelled from the spec: decode one escape pair `\c` of the tag-value
escape table. -/
def decodeTagEscape (c : Char) : Char :=
  if c = ':' then ';'
  else if c = 's' then ' '
  else if c = '\\' then '\\'
  else if c = 'r' then '\r'
  else if c = 'n' then '\n'
  else c

/-- Modelled from the spec: unescaping of a raw tag value, applied when
parsing. A trailing lone backslash is dropped. -/
def unescapeTagValue : List Char → List Char
  | [] => []
  | c :: rest =>
    if c = '\\' then
      match rest with
      | [] => []
      | e :: rest2 => decodeTagEscape e :: unescapeTagValue rest2
    else c :: unescapeTagValue rest

/-- Modelled from the spec: escape one literal character of a tag value
(the escape table applied in reverse when serializing). -/
def escapeTagChar (c : Char) : List Char :=
  if c = ';' then ['\\', ':']
  else if c = ' ' then ['\\', 's']
  else if c = '\\' then ['\\', '\\']
  else if c = '\r' then ['\\', 'r']
  else if c = '\n' then ['\\', 'n']
  else [c]

/-- Modelled from the spec: escaping of a tag value, applied when
serializing. -/
def escapeTagValue : List Char → List Char
  | [] => []
  | c :: rest => escapeTagChar c ++ escapeTagValue rest

/-! ## IRC prefix (spec §4.1)

`message/prefix.rs` is not among the published sources. Modelled from the
spec: "prefix segment is split on `!`/`@` into nick/user/host, or treated as
host-only if no separators"; serialization is `nick[!user][@host]` or the bare
host (glossary: `:nick!user@host` or `:host`). -/

inductive IRCPrefix where
  /-- The prefix specifies only a sending host. -/
  | HostOnly (host : List Char)
  /-- The prefix has a nick and optionally user and host. -/
  | Full (nick : List Char) (user : Option (List Char)) (host : Option (List Char))
deriving DecidableEq, Repr

namespace IRCPrefix

/-- Modelled from the spec: parse a prefix segment by splitting on the first
`@` into nick+user / host, then the nick+user part on the first `!`;
a segment with neither separator is a host-only prefix. -/
def parse (source : List Char) : IRCPrefix :=
  match splitOnce '@' source with
  | some (nickUser, host) =>
    match splitOnce '!' nickUser with
    | some (nick, user) => .Full nick (some user) (some host)
    | none => .Full nickUser none (some host)
  | none =>
    match splitOnce '!' source with
    | some (nick, user) => .Full nick (some user) none
    | none => .HostOnly source

/-- Modelled from the spec: serialize a prefix as `nick[!user][@host]` or the
bare host. -/
def formatAsRawIrc : IRCPrefix → List Char
  | .HostOnly host => host
  | .Full nick user host =>
    nick ++
      (match user with | some u => '!' :: u | none => []) ++
      (match host with | some h => '@' :: h | none => [])

end IRCPrefix

/-! ## IRC tags (spec §4.1, §3)

`message/tags.rs` is not among the published sources. The spec describes the
tag map (`tags` is a "mapping from tag-key to optional string value, keys
unique, order irrelevant"), parsing ("Tags segment is split on `;` into
key[=value] entries; a value is unescaped per the table; absent `=` yields a
tag with no value") and serialization ("emit `@`+escaped-tags+space if any
tags exist"). We embed the map as an association list in which inserting an
already-present key overwrites its value in place; list equality of such
lists refines the source's hash-map equality. -/

/-- A tag map as an association list with unique keys. -/
abbrev TagsList := List (List Char × Option (List Char))

/-- Insert a key/value pair into a tag map: an existing key is overwritten,
a new key is appended. -/
def insertTag : TagsList → List Char → Option (List Char) → TagsList
  | [], k, v => [(k, v)]
  | (k', v') :: rest, k, v =>
    if k' = k then (k, v) :: rest else (k', v') :: insertTag rest k v

namespace IRCTags

/-- Modelled from the spec: parse one `key[=value]` entry; the value, when
present, is unescaped. -/
def parseTag (chunk : List Char) : List Char × Option (List Char) :=
  match splitFirst '=' chunk with
  | (key, none) => (key, none)
  | (key, some raw) => (key, some (unescapeTagValue raw))

/-- Modelled from the spec: parse a tags segment by splitting it on `;` and
inserting every `key[=value]` entry into the map. -/
def parse (source : List Char) : TagsList :=
  (splitOnChar ';' source).foldl
    (fun acc chunk => insertTag acc (parseTag chunk).1 (parseTag chunk).2) []

/-- Modelled from the spec: serialize one tag as `key` or `key=escaped`. -/
def formatTag : List Char × Option (List Char) → List Char
  | (k, none) => k
  | (k, some v) => k ++ '=' :: escapeTagValue v

/-- Modelled from the spec: serialize a tag map, separating tags with `;`. -/
def formatAsRawIrc (tags : TagsList) : List Char :=
  joinSep ';' (tags.map formatTag)

end IRCTags

/-- The keys of a tag map. -/
def tagKeys (t : TagsList) : List (List Char) := t.map Prod.fst

/-- A key as produced by parsing: free of `;`, `=`, space, CR and LF. -/
def goodKey (k : List Char) : Bool :=
  k.all fun c => !(c == ';') && !(c == '=') && !(c == ' ') && !(c == '\r') && !(c == '\n')

/-! ## IRC messages: parse and serialize (`message/mod.rs`) -/

/-- Error while parsing a string into an `IRCMessage`
(`IRCParseError` in `message/mod.rs`). -/
inductive IRCParseError where
  | NoSpaceAfterTags
  | EmptyTagsDeclaration
  | NoSpaceAfterPrefix
  | EmptyPrefixDeclaration
  | MalformedCommand
  | TooManySpacesInMiddleParams
  | NewlinesInMessage
deriving DecidableEq, Repr

/-- A protocol-level IRC message (`IRCMessage` in `message/mod.rs`).
The source's `tags: IRCTags` hash map is embedded as a unique-key association
list; the source field `prefix` is named `prefix_` here because `prefix` is a
Lean keyword. -/
structure IRCMessage where
  tags : TagsList
  prefix_ : Option IRCPrefix
  command : List Char
  params : List (List Char)
deriving DecidableEq, Repr

/-- Rust `c.is_ascii() && c.is_numeric()` from the command check: a char that
is ASCII and has the Unicode numeric property is exactly one of `'0'`-`'9'`,
i.e. `Char.isDigit`; the ASCII test is kept explicit to mirror the source. -/
def isAsciiNumeric (c : Char) : Bool :=
  decide (c.toNat ≤ 127) && c.isDigit

/-- The parameter loop of `IRCMessage::parse` (`message/mod.rs` lines
228-251): repeatedly take the token up to the next space as a middle
parameter (empty middle tokens are `TooManySpacesInMiddleParams`); a token
starting with `:` consumes the whole rest as the trailing parameter. The
`fuel` argument makes the recursion structural; it strictly exceeds the
length of the input at every call, so it never runs out. -/
def paramsGo : Nat → List Char → Except IRCParseError (List (List Char))
  | 0, _ => .error .TooManySpacesInMiddleParams
  | fuel + 1, restStr =>
    if restStr.head? = some ':' then .ok [restStr.tail]
    else
      let (param, restOpt) := splitFirst ' ' restStr
      if param = [] then .error .TooManySpacesInMiddleParams
      else
        match restOpt with
        | none => .ok [param]
        | some r =>
          match paramsGo fuel r with
          | .ok ps => .ok (param :: ps)
          | .error e => .error e

/-- Parse the parameter part of a message. -/
def parseParams (l : List Char) : Except IRCParseError (List (List Char)) :=
  paramsGo (l.length + 1) l

/-- The tags stage of `IRCMessage::parse` (`message/mod.rs` lines 185-199):
if the text starts with `@`, split the rest at the first space into the tags
segment and the remainder. -/
def parseTagsStage (source : List Char) : Except IRCParseError (TagsList × List Char) :=
  if source.head? = some '@' then
    match splitOnce ' ' source.tail with
    | none => .error .NoSpaceAfterTags
    | some (tagsPart, remainder) =>
      if tagsPart = [] then .error .EmptyTagsDeclaration
      else .ok (IRCTags.parse tagsPart, remainder)
  else .ok ([], source)

/-- The prefix stage of `IRCMessage::parse` (`message/mod.rs` lines 201-215):
if the remaining text starts with `:`, split the rest at the first space into
the prefix segment and the remainder. -/
def parsePfxStage (source : List Char) : Except IRCParseError (Option IRCPrefix × List Char) :=
  if source.head? = some ':' then
    match splitOnce ' ' source.tail with
    | none => .error .NoSpaceAfterPrefix
    | some (pfxPart, remainder) =>
      if pfxPart = [] then .error .EmptyPrefixDeclaration
      else .ok (some (IRCPrefix.parse pfxPart), remainder)
  else .ok (none, source)

/-- `IRCMessage::parse` (`message/mod.rs` lines 180-259). -/
def IRCMessage.parse (source : List Char) : Except IRCParseError IRCMessage :=
  if source.any (fun c => c == '\r' || c == '\n') then .error .NewlinesInMessage
  else
    match parseTagsStage source with
    | .error e => .error e
    | .ok (tags, source1) =>
      match parsePfxStage source1 with
      | .error e => .error e
      | .ok (pfx, source2) =>
        let (tok, restOpt) := splitFirst ' ' source2
        let command := tok.map Char.toUpper
        if command.isEmpty ||
            (!(command.all Char.isAlpha) && !(command.all isAsciiNumeric))
        then .error .MalformedCommand
        else
          match restOpt with
          | none => .ok ⟨tags, pfx, command, []⟩
          | some paramsPart =>
            match parseParams paramsPart with
            | .error e => .error e
            | .ok params => .ok ⟨tags, pfx, command, params⟩

/-- The middle-parameter condition of the serializer (`message/mod.rs` line
279): no space, non-empty, does not start with `:`. -/
def isMiddleParam (param : List Char) : Bool :=
  !param.contains ' ' && !param.isEmpty && !(param.head? == some ':')

/-- The parameter loop of the serializer (`message/mod.rs` lines 278-288):
middle parameters are emitted as ` param`; the first non-middle parameter is
emitted as ` :param` and the loop breaks. -/
def formatParams : List (List Char) → List Char
  | [] => []
  | param :: rest =>
    if isMiddleParam param then ' ' :: param ++ formatParams rest
    else ' ' :: ':' :: param

/-- `IRCMessage::format_as_raw_irc` / `as_raw_irc` (`message/mod.rs` lines
262-292). -/
def IRCMessage.asRawIrc (m : IRCMessage) : List Char :=
  (if m.tags.isEmpty then [] else '@' :: IRCTags.formatAsRawIrc m.tags ++ [' ']) ++
  (match m.prefix_ with
   | some pfx => ':' :: IRCPrefix.formatAsRawIrc pfx ++ [' ']
   | none => []) ++
  m.command ++ formatParams m.params

/-- The command validity condition (negation of the rejection test at
`message/mod.rs` lines 221-226): non-empty and all-ASCII-alphabetic or
all-ASCII-numeric. -/
def validCommand (command : List Char) : Bool :=
  !command.isEmpty && (command.all Char.isAlpha || command.all isAsciiNumeric)

/-- The structural invariant of every message produced by `IRCMessage.parse`:
good unique tag keys, a prefix that serializes back to its original space-free
non-empty segment, a non-empty all-uppercase-alphabetic or all-numeric
command, middle-form parameters ahead of the last one, and no CR/LF in the
parameters. -/
def MsgInv (m : IRCMessage) : Prop :=
  (∀ p ∈ m.tags, goodKey p.1 = true) ∧
  (tagKeys m.tags).Nodup ∧
  (∀ pfx, m.prefix_ = some pfx →
     IRCPrefix.parse (IRCPrefix.formatAsRawIrc pfx) = pfx ∧
     IRCPrefix.formatAsRawIrc pfx ≠ [] ∧
     ∀ c ∈ IRCPrefix.formatAsRawIrc pfx, c ≠ ' ' ∧ c ≠ '\r' ∧ c ≠ '\n') ∧
  m.command ≠ [] ∧
  (m.command.all Char.isUpper = true ∨ m.command.all Char.isDigit = true) ∧
  (∀ p ∈ m.params.dropLast, isMiddleParam p = true) ∧
  (∀ p ∈ m.params, ∀ c ∈ p, c ≠ '\r' ∧ c ≠ '\n')


/-! ## Connection lifecycle state machine (`connection/event_loop.rs`)

The event loop owns one `ConnectionLoopState` and processes
`ConnectionLoopCommand`s one at a time. Handlers are embedded as pure
functions returning the successor state together with the list of side
effects they performed, in order: sends into the outgoing-messages channel
(`outgoing_messages_tx.send`), pool notifications
(`connection_incoming_tx.send`), and resolutions of `oneshot` reply senders.
Reply senders are identified by a `Nat` id; transport values and error
payloads that the handlers never inspect are abstracted away. -/

/-- The error taxonomy (`error.rs` is not among the published sources; the
constructors are modelled from spec §7 and the variants used in
`event_loop.rs`). -/
inductive TError where
  | LoginError
  | ConnectError
  | ConnectTimeout
  | IncomingError
  | IRCParseErrorE (e : IRCParseError)
  | OutgoingError
  | RemoteUnexpectedlyClosedConnection
  | ReconnectCmd
  | PingTimeout
deriving DecidableEq, Repr

/-- Modelled from the spec: the credentials pair (`login.rs` is not among the
published sources); `event_loop.rs` uses its `login` and optional `token`
fields. -/
structure CredentialsPair where
  login : List Char
  token : Option (List Char)
deriving DecidableEq, Repr

/-- Modelled from the spec: `ServerMessage` (`message/commands/*` is not
among the published sources). The spec requires the interpretation to
recognize PING, PONG and RECONNECT; other typed parses exist and can fail
(spec §7 "malformed-message parse failure"). -/
inductive ServerMessage where
  | Ping (m : IRCMessage)
  | Pong (m : IRCMessage)
  | Reconnect (m : IRCMessage)
  | Privmsg (m : IRCMessage)
  | Generic (m : IRCMessage)
deriving DecidableEq, Repr

namespace ServerMessage

/-- Modelled from the spec: `ServerMessage::try_from`. PING, PONG and
RECONNECT are recognized by command; as a representative of the typed
parses that can fail, a PRIVMSG without channel and text parameters is
rejected. The error payload carries the source message, mirroring
`IRCMessage::from(ServerMessageParseError)`, so that the caller can wrap it
as a generic message. Any other command is accepted as a generic message. -/
def tryFrom (m : IRCMessage) : Except IRCMessage ServerMessage :=
  if m.command = cs "PING" then .ok (.Ping m)
  else if m.command = cs "PONG" then .ok (.Pong m)
  else if m.command = cs "RECONNECT" then .ok (.Reconnect m)
  else if m.command = cs "PRIVMSG" then
    if 2 ≤ m.params.length then .ok (.Privmsg m) else .error m
  else .ok (.Generic m)

/-- `ServerMessage::new_generic`. -/
def newGeneric (m : IRCMessage) : ServerMessage := .Generic m

end ServerMessage

/-- Modelled from the spec: the pool notification surface
(`ConnectionIncomingMessage` in `connection/mod.rs`, not among the published
sources; spec §6: `IncomingMessage(message)`, `ConnectionClosed(reason)`). -/
inductive ConnectionIncomingMessage where
  | IncomingMessage (m : ServerMessage)
  | StateClosed (cause : TError)
deriving DecidableEq, Repr

/-- One observable side effect of a state-machine handler, in program order. -/
inductive Effect where
  /-- A `(message, reply sender)` pair pushed into the outgoing-messages
  channel toward the outgoing-forward task. -/
  | transportEnqueue (m : IRCMessage) (replySender : Option Nat)
  /-- A notification sent to the pool via `connection_incoming_tx`. -/
  | pool (p : ConnectionIncomingMessage)
  /-- A resolution of a `oneshot` reply sender. -/
  | reply (sender : Nat) (result : Except TError Unit)
deriving DecidableEq, Repr

/-- `ConnectionLoopCommand` (`event_loop.rs` lines 22-40). The payload of
`SendError` is never inspected (it is wrapped as `Error::OutgoingError`), so
it is abstracted away. -/
inductive ConnectionLoopCommand where
  | SendMessage (m : IRCMessage) (replySender : Option Nat)
  | TransportInitFinished (initResult : Except TError CredentialsPair)
  | SendError
  | IncomingMessage (maybeMessage : Option (Except TError IRCMessage))
  | SendPing
  | CheckPong
deriving DecidableEq, Repr

/-- `ConnectionLoopInitializingState`: the queue of send commands buffered
while connecting. -/
structure ConnectionLoopInitializingState where
  commandsQueue : List (IRCMessage × Option Nat)
deriving DecidableEq, Repr

/-- `ConnectionLoopOpenState`: the pong-seen flag (channel handles and kill
senders carry no state relevant to the transitions). -/
structure ConnectionLoopOpenState where
  pongReceived : Bool
deriving DecidableEq, Repr

/-- `ConnectionLoopClosedState`: the stored closure reason. -/
structure ConnectionLoopClosedState where
  reasonForClosure : TError
deriving DecidableEq, Repr

/-- `ConnectionLoopState` (`event_loop.rs` lines 62-67). -/
inductive ConnectionLoopState where
  | Initializing (s : ConnectionLoopInitializingState)
  | Open (s : ConnectionLoopOpenState)
  | Closed (s : ConnectionLoopClosedState)
deriving DecidableEq, Repr

/-- `irc!` macro / `IRCMessage::new_simple`: a message with only a command
and parameters. -/
def IRCMessage.new_simple (command : List Char) (params : List (List Char)) :
    IRCMessage :=
  ⟨[], none, command, params⟩

namespace ConnectionLoopInitializingState

/-- `ConnectionLoopInitializingState::send_message` (lines 356-362): append
to the commands queue; no other effect. -/
def send_message (s : ConnectionLoopInitializingState) (m : IRCMessage)
    (replySender : Option Nat) : ConnectionLoopInitializingState × List Effect :=
  (⟨s.commandsQueue ++ [(m, replySender)]⟩, [])

/-- `ConnectionLoopInitializingState::transition_to_closed` (lines 233-250):
fail every queued sender with the error, notify the pool of the closure, and
become Closed with the error as the stored reason. -/
def transition_to_closed (s : ConnectionLoopInitializingState) (err : TError) :
    ConnectionLoopState × List Effect :=
  (.Closed ⟨err⟩,
    (s.commandsQueue.filterMap fun p =>
      p.2.map fun sender => Effect.reply sender (.error err)) ++
    [.pool (.StateClosed err)])

/-- `ConnectionLoopInitializingState::on_transport_init_finished`
(lines 364-442): on success, spawn the forward and ping tasks, transition to
Open with the pong flag cleared, send the capability request, the password
when a token is present, the nickname and the membership capability request,
then flush the queued sends in order; on failure, close. -/
def on_transport_init_finished (s : ConnectionLoopInitializingState)
    (initResult : Except TError CredentialsPair) :
    ConnectionLoopState × List Effect :=
  match initResult with
  | .ok credentials =>
    (.Open ⟨false⟩,
      [.transportEnqueue
          (IRCMessage.new_simple (cs "CAP")
            [cs "REQ", cs "twitch.tv/tags twitch.tv/commands"]) none] ++
      (match credentials.token with
       | some token =>
         [.transportEnqueue
            (IRCMessage.new_simple (cs "PASS") [cs "oauth:" ++ token]) none]
       | none => []) ++
      [.transportEnqueue (IRCMessage.new_simple (cs "NICK") [credentials.login]) none,
       .transportEnqueue
          (IRCMessage.new_simple (cs "CAP") [cs "REQ", cs "twitch.tv/membership"]) none] ++
      s.commandsQueue.map fun p => .transportEnqueue p.1 p.2)
  | .error initError => s.transition_to_closed initError

/-- `ConnectionLoopInitializingState::on_send_error` (lines 444-446). -/
def on_send_error (s : ConnectionLoopInitializingState) :
    ConnectionLoopState × List Effect :=
  s.transition_to_closed .OutgoingError

end ConnectionLoopInitializingState

namespace ConnectionLoopOpenState

/-- `ConnectionLoopOpenState::send_message` (lines 508-523): push the pair
into the outgoing-messages channel. -/
def send_message (s : ConnectionLoopOpenState) (m : IRCMessage)
    (replySender : Option Nat) : ConnectionLoopOpenState × List Effect :=
  (s, [.transportEnqueue m replySender])

/-- `ConnectionLoopOpenState::transition_to_closed` (lines 480-495): notify
the pool, become Closed with the cause as the stored reason. -/
def transition_to_closed (_s : ConnectionLoopOpenState) (cause : TError) :
    ConnectionLoopState × List Effect :=
  (.Closed ⟨cause⟩, [.pool (.StateClosed cause)])

/-- `ConnectionLoopOpenState::on_send_error` (lines 532-534). -/
def on_send_error (s : ConnectionLoopOpenState) :
    ConnectionLoopState × List Effect :=
  s.transition_to_closed .OutgoingError

/-- `ConnectionLoopOpenState::on_incoming_message` (lines 536-595): EOF and
transport errors close the connection; a message that interprets as a
`ServerMessage` is forwarded to the pool and then reacted to (PING → send
PONG, PONG → set the pong flag, RECONNECT → close with `ReconnectCmd`); a
message that fails interpretation is forwarded as a generic message and the
connection stays Open. -/
def on_incoming_message (s : ConnectionLoopOpenState)
    (maybeMessage : Option (Except TError IRCMessage)) :
    ConnectionLoopState × List Effect :=
  match maybeMessage with
  | none => s.transition_to_closed .RemoteUnexpectedlyClosedConnection
  | some (.error error) => s.transition_to_closed error
  | some (.ok ircMessage) =>
    match ServerMessage.tryFrom ircMessage with
    | .ok serverMessage =>
      let forward : List Effect := [.pool (.IncomingMessage serverMessage)]
      match serverMessage with
      | .Ping _ =>
        let (s', sendEffs) :=
          s.send_message (IRCMessage.new_simple (cs "PONG") [cs "tmi.twitch.tv"]) none
        (.Open s', forward ++ sendEffs)
      | .Pong _ => (.Open ⟨true⟩, forward)
      | .Reconnect _ =>
        let (st, closeEffs) := s.transition_to_closed .ReconnectCmd
        (st, forward ++ closeEffs)
      | _ => (.Open s, forward)
    | .error parseErrorMsg =>
      (.Open s, [.pool (.IncomingMessage (ServerMessage.newGeneric parseErrorMsg))])

/-- `ConnectionLoopOpenState::send_ping` (lines 597-600): clear the pong
flag and send a PING. -/
def send_ping (_s : ConnectionLoopOpenState) :
    ConnectionLoopOpenState × List Effect :=
  let (s', effs) :=
    ConnectionLoopOpenState.send_message ⟨false⟩
      (IRCMessage.new_simple (cs "PING") [cs "tmi.twitch.tv"]) none
  (s', effs)

/-- `ConnectionLoopOpenState::check_pong` (lines 602-610): close with
`PingTimeout` when no pong was seen, otherwise stay Open. -/
def check_pong (s : ConnectionLoopOpenState) :
    ConnectionLoopState × List Effect :=
  if !s.pongReceived then s.transition_to_closed .PingTimeout
  else (.Open s, [])

end ConnectionLoopOpenState

namespace ConnectionLoopClosedState

/-- `ConnectionLoopClosedState::send_message` (lines 623-631): resolve the
reply sender, when present, with the stored closure reason; no transport
activity. -/
def send_message (s : ConnectionLoopClosedState) (_m : IRCMessage)
    (replySender : Option Nat) : ConnectionLoopClosedState × List Effect :=
  match replySender with
  | some sender => (s, [.reply sender (.error s.reasonForClosure)])
  | none => (s, [])

end ConnectionLoopClosedState

/-- `ConnectionLoopWorker::process_command` (lines 176-211) together with the
`enum_dispatch` of `ConnectionLoopStateMethods`: process one command against
the current state, producing the successor state and the effects. `none`
encodes the `unreachable!` handlers (Initializing receiving incoming/ping
events, Open receiving a second init result), which panic in the source. -/
def ConnectionLoopState.step (state : ConnectionLoopState)
    (command : ConnectionLoopCommand) :
    Option (ConnectionLoopState × List Effect) :=
  match state, command with
  | .Initializing s, .SendMessage m r =>
    some ((fun p => (ConnectionLoopState.Initializing p.1, p.2)) (s.send_message m r))
  | .Initializing s, .TransportInitFinished res =>
    some (s.on_transport_init_finished res)
  | .Initializing s, .SendError => some s.on_send_error
  | .Initializing _, .IncomingMessage _ => none
  | .Initializing _, .SendPing => none
  | .Initializing _, .CheckPong => none
  | .Open s, .SendMessage m r =>
    some ((fun p => (ConnectionLoopState.Open p.1, p.2)) (s.send_message m r))
  | .Open _, .TransportInitFinished _ => none
  | .Open s, .SendError => some s.on_send_error
  | .Open s, .IncomingMessage mm => some (s.on_incoming_message mm)
  | .Open s, .SendPing =>
    some ((fun p => (ConnectionLoopState.Open p.1, p.2)) s.send_ping)
  | .Open s, .CheckPong => some s.check_pong
  | .Closed s, .SendMessage m r =>
    some ((fun p => (ConnectionLoopState.Closed p.1, p.2)) (s.send_message m r))
  | .Closed s, .TransportInitFinished _ => some (.Closed s, [])
  | .Closed s, .SendError => some (.Closed s, [])
  | .Closed s, .IncomingMessage _ => some (.Closed s, [])
  | .Closed s, .SendPing => some (.Closed s, [])
  | .Closed s, .CheckPong => some (.Closed s, [])

/-- Run a list of inbound messages (each as `IncomingMessage (some (ok _))`)
through the state machine, collecting states and effects. -/
def runIncoming : ConnectionLoopState → List IRCMessage →
    ConnectionLoopState × List Effect
  | st, [] => (st, [])
  | st, m :: rest =>
    match st.step (.IncomingMessage (some (.ok m))) with
    | some (st', effs) =>
      let (st'', effs') := runIncoming st' rest
      (st'', effs ++ effs')
    | none => (st, [])

/-- Whether an inbound message interprets as a PONG. -/
def isPongResult (m : IRCMessage) : Bool :=
  match ServerMessage.tryFrom m with
  | .ok (.Pong _) => true
  | _ => false

/-- Whether an inbound message interprets as a RECONNECT directive. -/
def isReconnectResult (m : IRCMessage) : Bool :=
  match ServerMessage.tryFrom m with
  | .ok (.Reconnect _) => true
  | _ => false

/-! ## Trace model of the worker loop (spec §5 scheduling model)

Commands are produced by: the external pool (send requests, any time), the
init task (exactly one init result, spawned on construction), and the
incoming-forward, outgoing-forward and ping tasks, which are only spawned
while processing a successful init result in the Initializing state
(`event_loop.rs` lines 374-401). The worker consumes the queue strictly in
order, one command at a time. -/

namespace ConnectionLoopCommand

/-- Whether a command is produced only by the background tasks spawned on
the transition to Open (incoming-forward, outgoing-forward, ping task). -/
def fromSpawnedTask : ConnectionLoopCommand → Bool
  | .IncomingMessage _ => true
  | .SendPing => true
  | .CheckPong => true
  | .SendError => true
  | _ => false

end ConnectionLoopCommand

/-- A configuration of the worker: its state, the pending command queue, and
whether the post-init background tasks have been spawned and whether the
init task has already reported. -/
structure LoopConfig where
  state : ConnectionLoopState
  queue : List ConnectionLoopCommand
  tasksSpawned : Bool
  initReported : Bool

/-- The initial configuration created by `ConnectionLoopWorker::spawn`
(lines 77-105): Initializing with an empty queue, init task spawned but not
yet reported, no forward/ping tasks. -/
def LoopConfig.start : LoopConfig := ⟨.Initializing ⟨[]⟩, [], false, false⟩

/-- Whether processing `command` in `state` spawns the forward and ping
tasks: only a successful init result in Initializing (lines 374-401). -/
def spawnsTasks : ConnectionLoopState → ConnectionLoopCommand → Bool
  | .Initializing _, .TransportInitFinished (.ok _) => true
  | _, _ => false

/-- One step of the whole system: a producer enqueues a command it is
entitled to produce, or the worker processes the head of the queue. -/
inductive LoopStep : LoopConfig → LoopConfig → Prop
  | enqueueSend (c : LoopConfig) (m : IRCMessage) (r : Option Nat) :
      LoopStep c ⟨c.state, c.queue ++ [.SendMessage m r], c.tasksSpawned, c.initReported⟩
  | enqueueInit (c : LoopConfig) (res : Except TError CredentialsPair)
      (h : c.initReported = false) :
      LoopStep c ⟨c.state, c.queue ++ [.TransportInitFinished res], c.tasksSpawned, true⟩
  | enqueueTask (c : LoopConfig) (cmd : ConnectionLoopCommand)
      (hcmd : cmd.fromSpawnedTask = true) (h : c.tasksSpawned = true) :
      LoopStep c ⟨c.state, c.queue ++ [cmd], c.tasksSpawned, c.initReported⟩
  | process (c : LoopConfig) (cmd : ConnectionLoopCommand)
      (rest : List ConnectionLoopCommand) (st' : ConnectionLoopState)
      (effs : List Effect)
      (hq : c.queue = cmd :: rest)
      (hstep : c.state.step cmd = some (st', effs)) :
      LoopStep c ⟨st', rest, c.tasksSpawned || spawnsTasks c.state cmd, c.initReported⟩

/-- Reachable configurations of the worker system. -/
inductive LoopReachable : LoopConfig → Prop
  | start : LoopReachable LoopConfig.start
  | step {c c' : LoopConfig} (h : LoopReachable c) (hs : LoopStep c c') :
      LoopReachable c'

/-- The invariant: while Initializing no spawned task exists, and spawned
task commands can only sit in the queue once the tasks were spawned. -/
def LoopInv (c : LoopConfig) : Prop :=
  ((∃ s, c.state = .Initializing s) → c.tasksSpawned = false) ∧
  (∀ cmd ∈ c.queue, cmd.fromSpawnedTask = true → c.tasksSpawned = true)

theorem splitOnce_eq_none {sep : Char} {l : List Char}
    (h : ∀ c ∈ l, c ≠ sep) : splitOnce sep l = none := by
  induction l with
  | nil => rfl
  | cons c rest ih =>
    have hc : c ≠ sep := h c (by simp)
    simp only [splitOnce, if_neg hc]
    rw [ih (fun x hx => h x (by simp [hx]))]

theorem splitOnce_some {sep : Char} {l a b : List Char}
    (h : splitOnce sep l = some (a, b)) :
    l = a ++ sep :: b ∧ ∀ c ∈ a, c ≠ sep := by
  induction l generalizing a b with
  | nil => simp [splitOnce] at h
  | cons c rest ih =>
    by_cases hc : c = sep
    · simp only [splitOnce, if_pos hc] at h
      obtain ⟨rfl, rfl⟩ := by simpa using h
      simp [hc]
    · simp only [splitOnce, if_neg hc] at h
      match hr : splitOnce sep rest with
      | none => rw [hr] at h; simp at h
      | some (a', b') =>
        rw [hr] at h
        obtain ⟨rfl, rfl⟩ := by simpa using h
        obtain ⟨heq, hfree⟩ := ih hr
        constructor
        · simp [heq]
        · intro x hx
          rcases List.mem_cons.mp hx with rfl | hx
          · exact hc
          · exact hfree x hx

theorem splitOnce_append {sep : Char} {a : List Char} (b : List Char)
    (ha : ∀ c ∈ a, c ≠ sep) : splitOnce sep (a ++ sep :: b) = some (a, b) := by
  induction a with
  | nil => simp [splitOnce]
  | cons c rest ih =>
    have hc : c ≠ sep := ha c (by simp)
    simp only [List.cons_append, splitOnce, if_neg hc, List.append_eq]
    rw [ih (fun x hx => ha x (by simp [hx]))]

theorem splitOnChar_ne_nil {sep : Char} {l : List Char} :
    splitOnChar sep l ≠ [] := by
  induction l with
  | nil => simp [splitOnChar]
  | cons c rest ih =>
    simp only [splitOnChar]
    split
    · simp
    · match h : splitOnChar sep rest with
      | [] => simp
      | a :: more => simp

theorem splitOnChar_mem {sep : Char} {l ch : List Char}
    (h : ch ∈ splitOnChar sep l) : ∀ c ∈ ch, c ≠ sep ∧ c ∈ l := by
  induction l generalizing ch with
  | nil =>
    simp only [splitOnChar, List.mem_singleton] at h
    subst h; simp
  | cons x rest ih =>
    by_cases hx : x = sep
    · simp only [splitOnChar, if_pos hx] at h
      rcases List.mem_cons.mp h with rfl | h
      · simp
      · intro c hc
        obtain ⟨h1, h2⟩ := ih h c hc
        exact ⟨h1, by simp [h2]⟩
    · simp only [splitOnChar, if_neg hx] at h
      match hr : splitOnChar sep rest with
      | [] => exact absurd hr splitOnChar_ne_nil
      | a :: more =>
        rw [hr] at h
        rcases List.mem_cons.mp h with rfl | h
        · intro c hc
          rcases List.mem_cons.mp hc with rfl | hc
          · exact ⟨hx, by simp⟩
          · obtain ⟨h1, h2⟩ := ih (by rw [hr]; simp) c hc
            exact ⟨h1, by simp [h2]⟩
        · intro c hc
          obtain ⟨h1, h2⟩ := ih (by rw [hr]; simp [h]) c hc
          exact ⟨h1, by simp [h2]⟩

theorem splitOnChar_sepFree {sep : Char} {a : List Char}
    (h : ∀ c ∈ a, c ≠ sep) : splitOnChar sep a = [a] := by
  induction a with
  | nil => rfl
  | cons c rest ih =>
    have hc : c ≠ sep := h c (by simp)
    simp only [splitOnChar, if_neg hc]
    rw [ih (fun x hx => h x (by simp [hx]))]

theorem splitOnChar_append {sep : Char} {a : List Char} (b : List Char)
    (h : ∀ c ∈ a, c ≠ sep) :
    splitOnChar sep (a ++ sep :: b) = a :: splitOnChar sep b := by
  induction a with
  | nil => simp [splitOnChar]
  | cons c rest ih =>
    have hc : c ≠ sep := h c (by simp)
    simp only [List.cons_append, splitOnChar, if_neg hc, List.append_eq]
    rw [ih (fun x hx => h x (by simp [hx]))]

theorem splitOnChar_joinSep {sep : Char} {chunks : List (List Char)}
    (hne : chunks ≠ [])
    (h : ∀ ch ∈ chunks, ∀ c ∈ ch, c ≠ sep) :
    splitOnChar sep (joinSep sep chunks) = chunks := by
  induction chunks with
  | nil => exact absurd rfl hne
  | cons a rest ih =>
    match rest with
    | [] =>
      simp only [joinSep]
      exact splitOnChar_sepFree (h a (by simp))
    | b :: more =>
      show splitOnChar sep (a ++ sep :: joinSep sep (b :: more)) = _
      rw [splitOnChar_append _ (h a (by simp))]
      rw [ih (by simp) (fun ch hch => h ch (by simp [hch]))]

theorem joinSep_chars {sep : Char} {chunks : List (List Char)} {c : Char}
    (h : c ∈ joinSep sep chunks) : c = sep ∨ ∃ ch ∈ chunks, c ∈ ch := by
  induction chunks with
  | nil => simp [joinSep] at h
  | cons a rest ih =>
    match rest with
    | [] =>
      simp only [joinSep] at h
      exact Or.inr ⟨a, by simp, h⟩
    | b :: more =>
      have : c ∈ a ++ sep :: joinSep sep (b :: more) := h
      rcases List.mem_append.mp this with hc | hc
      · exact Or.inr ⟨a, by simp, hc⟩
      · rcases List.mem_cons.mp hc with rfl | hc
        · exact Or.inl rfl
        · rcases ih hc with hc | ⟨ch, hch, hcch⟩
          · exact Or.inl hc
          · exact Or.inr ⟨ch, by simp [hch], hcch⟩

/-! ## Character class lemmas

The Rust code uses `char::is_ascii_alphabetic`, `is_ascii`/`is_numeric` and
`make_ascii_uppercase`. On the characters involved these agree with Lean's
`Char.isAlpha`, `Char.isDigit` and `Char.toUpper` (a char that is ASCII and
Unicode-numeric is exactly one of `'0'`-`'9'`). -/

theorem uint32_le_iff {a b : UInt32} : a ≤ b ↔ a.toNat ≤ b.toNat := by
  rw [UInt32.le_def, BitVec.le_def]; rfl

theorem isUpper_iff {c : Char} : c.isUpper = true ↔ 65 ≤ c.toNat ∧ c.toNat ≤ 90 := by
  simp only [Char.isUpper, Bool.and_eq_true, decide_eq_true_eq, uint32_le_iff]
  exact Iff.rfl

theorem isLower_iff {c : Char} : c.isLower = true ↔ 97 ≤ c.toNat ∧ c.toNat ≤ 122 := by
  simp only [Char.isLower, Bool.and_eq_true, decide_eq_true_eq, uint32_le_iff]
  exact Iff.rfl

theorem isDigit_iff {c : Char} : c.isDigit = true ↔ 48 ≤ c.toNat ∧ c.toNat ≤ 57 := by
  simp only [Char.isDigit, Bool.and_eq_true, decide_eq_true_eq, uint32_le_iff]
  exact Iff.rfl

theorem toUpper_of_upper {c : Char} (h : c.isUpper = true) : c.toUpper = c := by
  rw [isUpper_iff] at h
  simp only [Char.toUpper]
  rw [if_neg]; omega

theorem toUpper_of_digit {c : Char} (h : c.isDigit = true) : c.toUpper = c := by
  rw [isDigit_iff] at h
  simp only [Char.toUpper]
  rw [if_neg]; omega

theorem toNat_ofNat_valid {n : Nat} (h : n.isValidChar) : (Char.ofNat n).toNat = n := by
  simp [Char.ofNat, dif_pos h, Char.ofNatAux, Char.toNat, UInt32.toNat]

theorem toUpper_isLower_false (c : Char) : (Char.toUpper c).isLower = false := by
  simp only [Char.toUpper]
  by_cases h : c.toNat ≥ 97 ∧ c.toNat ≤ 122
  · rw [if_pos h]
    have hv : (c.toNat - 32).isValidChar := by left; omega
    have := toNat_ofNat_valid hv
    rw [← Bool.not_eq_true, isLower_iff]
    omega
  · rw [if_neg h, ← Bool.not_eq_true, isLower_iff]
    intro hc
    omega

theorem isAlpha_toUpper_isUpper {c : Char} (h : (Char.toUpper c).isAlpha = true) :
    (Char.toUpper c).isUpper = true := by
  have hl := toUpper_isLower_false c
  simpa [Char.isAlpha, hl] using h

theorem char_ne_of_toNat_ne {a b : Char} (h : a.toNat ≠ b.toNat) : a ≠ b := by
  intro he; exact h (he ▸ rfl)

theorem upper_ne_special {c : Char} (h : c.isUpper = true) :
    c ≠ ' ' ∧ c ≠ ':' ∧ c ≠ '@' ∧ c ≠ '\r' ∧ c ≠ '\n' := by
  rw [isUpper_iff] at h
  refine ⟨?_, ?_, ?_, ?_, ?_⟩ <;>
    (apply char_ne_of_toNat_ne; intro hc; rw [hc] at h) <;> revert h <;> decide

theorem digit_ne_special {c : Char} (h : c.isDigit = true) :
    c ≠ ' ' ∧ c ≠ ':' ∧ c ≠ '@' ∧ c ≠ '\r' ∧ c ≠ '\n' := by
  rw [isDigit_iff] at h
  refine ⟨?_, ?_, ?_, ?_, ?_⟩ <;>
    (apply char_ne_of_toNat_ne; intro hc; rw [hc] at h) <;> revert h <;> decide

theorem escapeTagChar_chars {c x : Char} (h : x ∈ escapeTagChar c) :
    x ≠ ';' ∧ x ≠ ' ' ∧ x ≠ '\r' ∧ x ≠ '\n' := by
  unfold escapeTagChar at h
  split at h
  · rcases List.mem_cons.mp h with rfl | h <;> simp_all
  split at h
  · rcases List.mem_cons.mp h with rfl | h <;> simp_all
  split at h
  · rcases List.mem_cons.mp h with rfl | h <;> simp_all
  split at h
  · rcases List.mem_cons.mp h with rfl | h <;> simp_all
  split at h
  · rcases List.mem_cons.mp h with rfl | h <;> simp_all
  · rename_i h1 h2 h3 h4 h5
    rcases List.mem_singleton.mp h with rfl
    exact ⟨h1, h2, h4, h5⟩

theorem escapeTagValue_chars {v : List Char} {x : Char} (h : x ∈ escapeTagValue v) :
    x ≠ ';' ∧ x ≠ ' ' ∧ x ≠ '\r' ∧ x ≠ '\n' := by
  induction v with
  | nil => simp [escapeTagValue] at h
  | cons c rest ih =>
    rcases List.mem_append.mp h with h | h
    · exact escapeTagChar_chars h
    · exact ih h

theorem unescape_escape (v : List Char) :
    unescapeTagValue (escapeTagValue v) = v := by
  induction v with
  | nil => rfl
  | cons c rest ih =>
    show unescapeTagValue (escapeTagChar c ++ escapeTagValue rest) = c :: rest
    by_cases h1 : c = ';'
    · subst h1; simp only [escapeTagChar, if_pos rfl]
      show unescapeTagValue ('\\' :: ':' :: escapeTagValue rest) = _
      simp [unescapeTagValue, decodeTagEscape, ih]
    by_cases h2 : c = ' '
    · subst h2; simp only [escapeTagChar, if_neg h1, if_pos rfl]
      show unescapeTagValue ('\\' :: 's' :: escapeTagValue rest) = _
      simp [unescapeTagValue, decodeTagEscape, ih]
    by_cases h3 : c = '\\'
    · subst h3; simp only [escapeTagChar, if_neg h1, if_neg h2, if_pos rfl]
      show unescapeTagValue ('\\' :: '\\' :: escapeTagValue rest) = _
      simp [unescapeTagValue, decodeTagEscape, ih]
    by_cases h4 : c = '\r'
    · subst h4; simp only [escapeTagChar, if_neg h1, if_neg h2, if_neg h3, if_pos rfl]
      show unescapeTagValue ('\\' :: 'r' :: escapeTagValue rest) = _
      simp [unescapeTagValue, decodeTagEscape, ih]
    by_cases h5 : c = '\n'
    · subst h5
      simp only [escapeTagChar, if_neg h1, if_neg h2, if_neg h3, if_neg h4, if_pos rfl]
      show unescapeTagValue ('\\' :: 'n' :: escapeTagValue rest) = _
      simp [unescapeTagValue, decodeTagEscape, ih]
    · simp only [escapeTagChar, if_neg h1, if_neg h2, if_neg h3, if_neg h4, if_neg h5]
      show unescapeTagValue (c :: escapeTagValue rest) = _
      rw [unescapeTagValue.eq_def]
      simp only [if_neg h3]
      rw [ih]

/-- Serializing a parsed prefix segment reproduces the segment exactly. -/
theorem IRCPrefix.format_parse (source : List Char) :
    formatAsRawIrc (parse source) = source := by
  unfold parse
  match h1 : splitOnce '@' source with
  | some (nickUser, host) =>
    match h2 : splitOnce '!' nickUser with
    | some (nick, user) =>
      obtain ⟨rfl, -⟩ := splitOnce_some h2
      obtain ⟨rfl, -⟩ := splitOnce_some h1
      simp [h2, formatAsRawIrc]
    | none =>
      obtain ⟨rfl, -⟩ := splitOnce_some h1
      simp [h2, formatAsRawIrc]
  | none =>
    match h2 : splitOnce '!' source with
    | some (nick, user) =>
      obtain ⟨rfl, -⟩ := splitOnce_some h2
      simp [formatAsRawIrc]
    | none => simp [formatAsRawIrc]

theorem goodKey_spec {k : List Char} (h : goodKey k = true) :
    ∀ c ∈ k, c ≠ ';' ∧ c ≠ '=' ∧ c ≠ ' ' ∧ c ≠ '\r' ∧ c ≠ '\n' := by
  intro c hc
  have := List.all_eq_true.mp h c hc
  simp only [Bool.and_eq_true, Bool.not_eq_true', beq_eq_false_iff_ne] at this
  exact ⟨this.1.1.1.1, this.1.1.1.2, this.1.1.2, this.1.2, this.2⟩

theorem insertTag_ne_nil {t : TagsList} {k : List Char} {v : Option (List Char)} :
    insertTag t k v ≠ [] := by
  match t with
  | [] => simp [insertTag]
  | (k', v') :: rest =>
    simp only [insertTag]
    split <;> simp

theorem tagKeys_insertTag {t : TagsList} {k x : List Char} {v : Option (List Char)}
    (h : x ∈ tagKeys (insertTag t k v)) : x ∈ tagKeys t ∨ x = k := by
  induction t with
  | nil => simp [insertTag, tagKeys] at h; exact Or.inr h
  | cons p rest ih =>
    obtain ⟨k', v'⟩ := p
    simp only [insertTag] at h
    split at h
    · simp only [tagKeys, List.map_cons] at h
      rcases List.mem_cons.mp h with rfl | h
      · exact Or.inr rfl
      · refine Or.inl ?_
        simp only [tagKeys, List.map_cons]
        exact List.mem_cons_of_mem _ h
    · simp only [tagKeys, List.map_cons] at h
      rcases List.mem_cons.mp h with rfl | h
      · exact Or.inl (by simp [tagKeys])
      · rcases ih h with h | h
        · refine Or.inl ?_
          simp only [tagKeys, List.map_cons]
          exact List.mem_cons_of_mem _ h
        · exact Or.inr h

theorem mem_insertTag {t : TagsList} {k : List Char} {v : Option (List Char)}
    {p : List Char × Option (List Char)} (h : p ∈ insertTag t k v) :
    p ∈ t ∨ p = (k, v) := by
  induction t with
  | nil => simp [insertTag] at h; exact Or.inr h
  | cons q rest ih =>
    obtain ⟨k', v'⟩ := q
    simp only [insertTag] at h
    split at h
    · rcases List.mem_cons.mp h with rfl | h
      · exact Or.inr rfl
      · exact Or.inl (by simp [h])
    · rcases List.mem_cons.mp h with rfl | h
      · exact Or.inl (by simp)
      · rcases ih h with h | h
        · exact Or.inl (by simp [h])
        · exact Or.inr h

theorem nodup_insertTag {t : TagsList} {k : List Char} {v : Option (List Char)}
    (h : (tagKeys t).Nodup) : (tagKeys (insertTag t k v)).Nodup := by
  induction t with
  | nil => simp [insertTag, tagKeys]
  | cons p rest ih =>
    obtain ⟨k', v'⟩ := p
    simp only [tagKeys, List.map_cons, List.nodup_cons] at h
    obtain ⟨hk', hrest⟩ := h
    simp only [insertTag]
    split
    · rename_i heq
      subst heq
      simp only [tagKeys, List.map_cons, List.nodup_cons]
      exact ⟨hk', hrest⟩
    · rename_i hne
      simp only [tagKeys, List.map_cons, List.nodup_cons]
      refine ⟨?_, ih hrest⟩
      intro hmem
      rcases tagKeys_insertTag hmem with hmem | rfl
      · exact hk' hmem
      · exact hne rfl

/-- Inserting a fresh key appends it. -/
theorem insertTag_fresh {t : TagsList} {k : List Char} {v : Option (List Char)}
    (h : k ∉ tagKeys t) : insertTag t k v = t ++ [(k, v)] := by
  induction t with
  | nil => rfl
  | cons p rest ih =>
    obtain ⟨k', v'⟩ := p
    simp only [tagKeys, List.map_cons, List.mem_cons] at h
    push_neg at h
    simp only [insertTag]
    rw [if_neg (fun he => h.1 he.symm)]
    rw [ih (by simpa [tagKeys] using h.2)]
    simp

/-- Folding `insertTag` over pairwise-fresh entries reproduces them. -/
theorem foldl_insertTag_eq (t acc : TagsList)
    (hdisj : ∀ p ∈ t, p.1 ∉ tagKeys acc)
    (hnd : (tagKeys t).Nodup) :
    t.foldl (fun a p => insertTag a p.1 p.2) acc = acc ++ t := by
  induction t generalizing acc with
  | nil => simp
  | cons p rest ih =>
    obtain ⟨k, v⟩ := p
    simp only [List.foldl_cons]
    rw [insertTag_fresh (hdisj (k, v) (by simp))]
    rw [ih (acc ++ [(k, v)])]
    · simp
    · intro q hq
      simp only [tagKeys, List.map_append, List.mem_append] at *
      push_neg
      constructor
      · exact hdisj q (by simp [hq])
      · simp only [tagKeys, List.map_cons, List.nodup_cons] at hnd
        intro hqk
        simp only [List.map_cons, List.map_nil, List.mem_singleton] at hqk
        exact hnd.1 (hqk ▸ List.mem_map_of_mem Prod.fst hq)
    · simp only [tagKeys, List.map_cons, List.nodup_cons] at hnd
      exact hnd.2

theorem foldl_congr_mem {α β : Type} {l : List α} (f g : β → α → β) (b : β)
    (h : ∀ x ∈ l, ∀ acc, f acc x = g acc x) : l.foldl f b = l.foldl g b := by
  induction l generalizing b with
  | nil => rfl
  | cons x rest ih =>
    simp only [List.foldl_cons]
    rw [h x (by simp) b]
    exact ih _ (fun y hy acc => h y (List.mem_cons_of_mem _ hy) acc)

/-- Parsing a serialized tag entry gives the tag back, provided its key is
free of `=` and the separator characters. -/
theorem parseTag_formatTag {k : List Char} {v : Option (List Char)}
    (hk : goodKey k = true) :
    IRCTags.parseTag (IRCTags.formatTag (k, v)) = (k, v) := by
  have hkeq : ∀ c ∈ k, c ≠ '=' := fun c hc => (goodKey_spec hk c hc).2.1
  match v with
  | none =>
    simp only [IRCTags.formatTag, IRCTags.parseTag, splitFirst]
    rw [splitOnce_eq_none hkeq]
  | some v =>
    simp only [IRCTags.formatTag, IRCTags.parseTag, splitFirst]
    rw [splitOnce_append _ hkeq]
    simp [unescape_escape]

/-- Parsing a serialized tag map reproduces it, provided all keys are good
and pairwise distinct. -/
theorem tags_roundtrip {t : TagsList}
    (hgood : ∀ p ∈ t, goodKey p.1 = true)
    (hnd : (tagKeys t).Nodup) (hne : t ≠ []) :
    IRCTags.parse (IRCTags.formatAsRawIrc t) = t := by
  unfold IRCTags.parse IRCTags.formatAsRawIrc
  have hchunks : ∀ ch ∈ t.map IRCTags.formatTag, ∀ c ∈ ch, c ≠ ';' := by
    intro ch hch c hc
    obtain ⟨p, hp, rfl⟩ := List.mem_map.mp hch
    obtain ⟨k, v⟩ := p
    match v with
    | none => exact (goodKey_spec (hgood (k, none) hp) c hc).1
    | some v =>
      simp only [IRCTags.formatTag] at hc
      rcases List.mem_append.mp hc with hc | hc
      · exact (goodKey_spec (hgood (k, some v) hp) c hc).1
      · rcases List.mem_cons.mp hc with rfl | hc
        · decide
        · exact (escapeTagValue_chars hc).1
  rw [splitOnChar_joinSep (by simpa using hne) hchunks]
  have : ∀ acc : TagsList,
      (∀ p ∈ t, p.1 ∉ tagKeys acc) →
      (t.map IRCTags.formatTag).foldl
        (fun acc chunk =>
          insertTag acc (IRCTags.parseTag chunk).1 (IRCTags.parseTag chunk).2) acc
        = acc ++ t := by
    intro acc hdisj
    rw [List.foldl_map]
    have heq : ∀ acc₀ : TagsList, ∀ p ∈ t,
        insertTag acc₀ (IRCTags.parseTag (IRCTags.formatTag p)).1
          (IRCTags.parseTag (IRCTags.formatTag p)).2 = insertTag acc₀ p.1 p.2 := by
      intro acc₀ p hp
      obtain ⟨k, v⟩ := p
      rw [parseTag_formatTag (hgood (k, v) hp)]
    calc t.foldl (fun a p => insertTag a (IRCTags.parseTag (IRCTags.formatTag p)).1
          (IRCTags.parseTag (IRCTags.formatTag p)).2) acc
        = t.foldl (fun a p => insertTag a p.1 p.2) acc := by
          apply foldl_congr_mem
          intro p hp a
          exact heq a p hp
      _ = acc ++ t := foldl_insertTag_eq t acc hdisj hnd
  simpa using this [] (by simp [tagKeys])

example : IRCMessage.parse (cs "PING :tmi.twitch.tv") =
    .ok ⟨[], none, cs "PING", [cs "tmi.twitch.tv"]⟩ := by decide
example : IRCMessage.parse (cs "foo bar baz ::asdf") =
    .ok ⟨[], none, cs "FOO", [cs "bar", cs "baz", cs ":asdf"]⟩ := by decide
example : IRCMessage.parse (cs ":coolguy foo bar baz :  asdf quux ") =
    .ok ⟨[], some (.HostOnly (cs "coolguy")), cs "FOO",
      [cs "bar", cs "baz", cs "  asdf quux "]⟩ := by decide
example : IRCMessage.parse (cs "@a=b;c=32;k;rt=ql7 foo") =
    .ok ⟨[(cs "a", some (cs "b")), (cs "c", some (cs "32")), (cs "k", none),
      (cs "rt", some (cs "ql7"))], none, cs "FOO", []⟩ := by decide
example : IRCMessage.parse (cs "@ :tmi.twitch.tv TEST") = .error .EmptyTagsDeclaration := by decide
example : IRCMessage.parse (cs "@key=value") = .error .NoSpaceAfterTags := by decide
example : IRCMessage.parse (cs "@key=value : TEST") = .error .EmptyPrefixDeclaration := by decide
example : IRCMessage.parse (cs "@key=value :tmi.twitch.tv") = .error .NoSpaceAfterPrefix := by decide
example : IRCMessage.parse (cs "@key=value :tmi.twitch.tv  PING") = .error .MalformedCommand := by decide
example : IRCMessage.parse (cs "@key=value :tmi.twitch.tv PING asd  def") =
    .error .TooManySpacesInMiddleParams := by decide
example : IRCMessage.parse (cs "abc\ndef") = .error .NewlinesInMessage := by decide
example : IRCMessage.parse (cs "ping") = .ok ⟨[], none, cs "PING", []⟩ := by decide
example : IRCMessage.parse (cs "500 :Internal Server Error") =
    .ok ⟨[], none, cs "500", [cs "Internal Server Error"]⟩ := by decide
example : (IRCMessage.mk [] none (cs "PASS") [cs "oauth:9892879487293847"]).asRawIrc =
    cs "PASS oauth:9892879487293847" := by decide


/-! ## Invariants of parsed messages -/

theorem splitOnce_none_chars {sep : Char} {l : List Char}
    (h : splitOnce sep l = none) : ∀ c ∈ l, c ≠ sep := by
  induction l with
  | nil => simp
  | cons c rest ih =>
    by_cases hc : c = sep
    · simp [splitOnce, if_pos hc] at h
    · simp only [splitOnce, if_neg hc] at h
      match hr : splitOnce sep rest with
      | none =>
        intro x hx
        rcases List.mem_cons.mp hx with rfl | hx
        · exact hc
        · exact ih hr x hx
      | some (a, b) => rw [hr] at h; simp at h

theorem paramsGo_succ_colon {n : Nat} {l : List Char} (h : l.head? = some ':') :
    paramsGo (n + 1) l = .ok [l.tail] := by
  simp [paramsGo, h]

theorem paramsGo_succ_nosp {n : Nat} {l : List Char}
    (hc : ¬l.head? = some ':') (ho : splitOnce ' ' l = none) :
    paramsGo (n + 1) l =
      if l = [] then .error .TooManySpacesInMiddleParams else .ok [l] := by
  simp [paramsGo, hc, splitFirst, ho]

theorem paramsGo_succ_sp {n : Nat} {l a b : List Char}
    (hc : ¬l.head? = some ':') (ho : splitOnce ' ' l = some (a, b)) :
    paramsGo (n + 1) l =
      if a = [] then .error .TooManySpacesInMiddleParams
      else
        match paramsGo n b with
        | .ok ps => .ok (a :: ps)
        | .error e => .error e := by
  simp [paramsGo, hc, splitFirst, ho]

theorem paramsGo_mono {f1 f2 : Nat} {l : List Char}
    (h1 : l.length < f1) (h2 : l.length < f2) : paramsGo f1 l = paramsGo f2 l := by
  induction f1 generalizing f2 l with
  | zero => omega
  | succ n ih =>
    match f2, h2 with
    | m + 1, h2 =>
      by_cases hc : l.head? = some ':'
      · rw [paramsGo_succ_colon hc, paramsGo_succ_colon hc]
      · match ho : splitOnce ' ' l with
        | none => rw [paramsGo_succ_nosp hc ho, paramsGo_succ_nosp hc ho]
        | some (a, b) =>
          rw [paramsGo_succ_sp hc ho, paramsGo_succ_sp hc ho]
          obtain ⟨heq, -⟩ := splitOnce_some ho
          have hb : b.length < l.length := by subst heq; simp; omega
          rw [@ih m b (by omega) (by omega)]

theorem isEmpty_false_of_ne_nil {l : List Char} (h : l ≠ []) : l.isEmpty = false := by
  match l with
  | [] => exact absurd rfl h
  | c :: rest => rfl

theorem contains_eq_false_of_forall_ne {l : List Char} {a : Char}
    (h : ∀ c ∈ l, c ≠ a) : l.contains a = false := by
  rw [← Bool.not_eq_true, List.contains_iff_exists_mem_beq]
  push_neg
  intro x hx hbeq
  exact h x hx (beq_iff_eq.mp hbeq).symm

theorem paramsGo_ok_inv {fuel : Nat} {l : List Char} {ps : List (List Char)}
    (h : paramsGo fuel l = .ok ps) :
    ps ≠ [] ∧ (∀ p ∈ ps.dropLast, isMiddleParam p = true) ∧
      (∀ p ∈ ps, ∀ c ∈ p, c ∈ l) := by
  induction fuel generalizing l ps with
  | zero => simp [paramsGo] at h
  | succ n ih =>
    by_cases hc : l.head? = some ':'
    · rw [paramsGo_succ_colon hc] at h
      obtain rfl : [l.tail] = ps := by simpa using h
      refine ⟨by simp, by simp, ?_⟩
      intro p hp c hcc
      rcases List.mem_singleton.mp hp with rfl
      exact List.mem_of_mem_tail hcc
    · match ho : splitOnce ' ' l with
      | none =>
        rw [paramsGo_succ_nosp hc ho] at h
        split at h
        · simp at h
        · rename_i hlne
          obtain rfl : [l] = ps := by simpa using h
          have hfree := splitOnce_none_chars ho
          have hmid : isMiddleParam l = true := by
            simp only [isMiddleParam, Bool.and_eq_true, Bool.not_eq_true']
            exact ⟨⟨contains_eq_false_of_forall_ne hfree, isEmpty_false_of_ne_nil hlne⟩,
              beq_eq_false_iff_ne.mpr hc⟩
          refine ⟨by simp, by simp, ?_⟩
          intro p hp c hcc
          rcases List.mem_singleton.mp hp with rfl
          exact hcc
      | some (a, b) =>
        rw [paramsGo_succ_sp hc ho] at h
        split at h
        · simp at h
        · rename_i hane
          obtain ⟨heq, hfree⟩ := splitOnce_some ho
          have hamem : ∀ c ∈ a, c ∈ l := by
            intro c hcc; rw [heq]; exact List.mem_append_left _ hcc
          have hahd : a.head? ≠ some ':' := by
            rcases a with - | ⟨x, a'⟩
            · exact absurd rfl hane
            · simp only [List.head?]
              intro hx
              have hx' : x = ':' := by simpa using hx
              subst hx'
              exact hc (by rw [heq]; rfl)
          have hmid : isMiddleParam a = true := by
            simp only [isMiddleParam, Bool.and_eq_true, Bool.not_eq_true']
            exact ⟨⟨contains_eq_false_of_forall_ne hfree, isEmpty_false_of_ne_nil hane⟩,
              beq_eq_false_iff_ne.mpr hahd⟩
          match hrec : paramsGo n b with
          | .error e => rw [hrec] at h; simp at h
          | .ok ps' =>
            rw [hrec] at h
            obtain rfl : a :: ps' = ps := by simpa using h
            obtain ⟨hne', hmid', hsub'⟩ := ih hrec
            refine ⟨by simp, ?_, ?_⟩
            · intro p hp
              rw [List.dropLast_cons_of_ne_nil hne'] at hp
              rcases List.mem_cons.mp hp with rfl | hp
              · exact hmid
              · exact hmid' p hp
            · intro p hp c hcc
              rcases List.mem_cons.mp hp with rfl | hp
              · exact hamem c hcc
              · rw [heq]
                exact List.mem_append_right _
                  (List.mem_cons_of_mem _ (hsub' p hp c hcc))

theorem goodKey_intro {k : List Char}
    (h : ∀ c ∈ k, c ≠ ';' ∧ c ≠ '=' ∧ c ≠ ' ' ∧ c ≠ '\r' ∧ c ≠ '\n') :
    goodKey k = true := by
  rw [goodKey, List.all_eq_true]
  intro c hc
  obtain ⟨h1, h2, h3, h4, h5⟩ := h c hc
  simp [h1, h2, h3, h4, h5]

theorem parseTag_key {chunk : List Char} :
    ∀ c ∈ (IRCTags.parseTag chunk).1, c ≠ '=' ∧ c ∈ chunk := by
  unfold IRCTags.parseTag splitFirst
  match ho : splitOnce '=' chunk with
  | none =>
    intro c hc
    simp only at hc
    exact ⟨splitOnce_none_chars ho c hc, hc⟩
  | some (a, b) =>
    intro c hc
    simp only at hc
    obtain ⟨heq, hfree⟩ := splitOnce_some ho
    exact ⟨hfree c hc, by rw [heq]; exact List.mem_append_left _ hc⟩

theorem foldl_insertTag_good {chunks : List (List Char)} {acc : TagsList}
    (hch : ∀ ch ∈ chunks, goodKey (IRCTags.parseTag ch).1 = true)
    (hacc : ∀ p ∈ acc, goodKey p.1 = true) (hnd : (tagKeys acc).Nodup) :
    (∀ p ∈ chunks.foldl
        (fun a ch => insertTag a (IRCTags.parseTag ch).1 (IRCTags.parseTag ch).2) acc,
      goodKey p.1 = true) ∧
    (tagKeys (chunks.foldl
        (fun a ch => insertTag a (IRCTags.parseTag ch).1 (IRCTags.parseTag ch).2) acc)).Nodup := by
  induction chunks generalizing acc with
  | nil => exact ⟨hacc, hnd⟩
  | cons ch rest ih =>
    simp only [List.foldl_cons]
    apply ih
    · intro ch' hch'
      exact hch ch' (List.mem_cons_of_mem _ hch')
    · intro p hp
      rcases mem_insertTag hp with hp | rfl
      · exact hacc p hp
      · exact hch ch (by simp)
    · exact nodup_insertTag hnd

theorem foldl_insertTag_ne_nil {chunks : List (List Char)} {acc : TagsList}
    (h : acc ≠ []) :
    chunks.foldl
      (fun a ch => insertTag a (IRCTags.parseTag ch).1 (IRCTags.parseTag ch).2) acc ≠ [] := by
  induction chunks generalizing acc with
  | nil => exact h
  | cons ch rest ih =>
    simp only [List.foldl_cons]
    exact ih insertTag_ne_nil

theorem IRCTags_parse_inv {t : List Char}
    (ht : ∀ c ∈ t, c ≠ ' ' ∧ c ≠ '\r' ∧ c ≠ '\n') :
    (∀ p ∈ IRCTags.parse t, goodKey p.1 = true) ∧
    (tagKeys (IRCTags.parse t)).Nodup ∧ IRCTags.parse t ≠ [] := by
  have hch : ∀ ch ∈ splitOnChar ';' t, goodKey (IRCTags.parseTag ch).1 = true := by
    intro ch hchm
    apply goodKey_intro
    intro c hc
    obtain ⟨hne, hmem⟩ := parseTag_key c hc
    obtain ⟨hsemi, hint⟩ := splitOnChar_mem hchm c hmem
    obtain ⟨hsp, hcr, hlf⟩ := ht c hint
    exact ⟨hsemi, hne, hsp, hcr, hlf⟩
  unfold IRCTags.parse
  obtain ⟨hgood, hnd⟩ :=
    @foldl_insertTag_good (splitOnChar ';' t) [] hch (by simp) (by simp [tagKeys])
  refine ⟨hgood, hnd, ?_⟩
  match hsc : splitOnChar ';' t with
  | [] => exact absurd hsc splitOnChar_ne_nil
  | ch :: rest =>
    simp only [List.foldl_cons]
    exact foldl_insertTag_ne_nil insertTag_ne_nil

/-! ### Evaluation lemmas for the parse stages -/

theorem parseTagsStage_noat {source : List Char} (h : ¬source.head? = some '@') :
    parseTagsStage source = .ok ([], source) := by
  simp [parseTagsStage, h]

theorem parseTagsStage_at_none {source : List Char}
    (h : source.head? = some '@') (ho : splitOnce ' ' source.tail = none) :
    parseTagsStage source = .error .NoSpaceAfterTags := by
  simp [parseTagsStage, h, ho]

theorem parseTagsStage_at_some {source tp rem : List Char}
    (h : source.head? = some '@') (ho : splitOnce ' ' source.tail = some (tp, rem)) :
    parseTagsStage source =
      if tp = [] then .error .EmptyTagsDeclaration
      else .ok (IRCTags.parse tp, rem) := by
  simp [parseTagsStage, h, ho]

theorem parsePfxStage_nocolon {source : List Char} (h : ¬source.head? = some ':') :
    parsePfxStage source = .ok (none, source) := by
  simp [parsePfxStage, h]

theorem parsePfxStage_colon_none {source : List Char}
    (h : source.head? = some ':') (ho : splitOnce ' ' source.tail = none) :
    parsePfxStage source = .error .NoSpaceAfterPrefix := by
  simp [parsePfxStage, h, ho]

theorem parsePfxStage_colon_some {source pp rem : List Char}
    (h : source.head? = some ':') (ho : splitOnce ' ' source.tail = some (pp, rem)) :
    parsePfxStage source =
      if pp = [] then .error .EmptyPrefixDeclaration
      else .ok (some (IRCPrefix.parse pp), rem) := by
  simp [parsePfxStage, h, ho]

theorem parse_newlines {source : List Char}
    (h : (source.any fun c => c == '\r' || c == '\n') = true) :
    IRCMessage.parse source = .error .NewlinesInMessage := by
  simp [IRCMessage.parse, h]

theorem parse_stage1_err {source : List Char} {e : IRCParseError}
    (hnl : (source.any fun c => c == '\r' || c == '\n') = false)
    (h1 : parseTagsStage source = .error e) :
    IRCMessage.parse source = .error e := by
  simp [IRCMessage.parse, hnl, h1]

theorem parse_stage2_err {source s1 : List Char} {tags : TagsList} {e : IRCParseError}
    (hnl : (source.any fun c => c == '\r' || c == '\n') = false)
    (h1 : parseTagsStage source = .ok (tags, s1))
    (h2 : parsePfxStage s1 = .error e) :
    IRCMessage.parse source = .error e := by
  simp [IRCMessage.parse, hnl, h1, h2]

/-- After successful newline check, tags and prefix stages, `IRCMessage.parse`
reduces to the command check; case with no parameter part. -/
theorem parse_cmd_none {source s1 s2 tok : List Char} {tags : TagsList}
    {po : Option IRCPrefix}
    (hnl : (source.any fun c => c == '\r' || c == '\n') = false)
    (h1 : parseTagsStage source = .ok (tags, s1))
    (h2 : parsePfxStage s1 = .ok (po, s2))
    (hts : splitFirst ' ' s2 = (tok, none)) :
    IRCMessage.parse source =
      if (tok.map Char.toUpper).isEmpty ||
          (!((tok.map Char.toUpper).all Char.isAlpha) &&
           !((tok.map Char.toUpper).all isAsciiNumeric))
      then .error .MalformedCommand
      else .ok ⟨tags, po, tok.map Char.toUpper, []⟩ := by
  simp [IRCMessage.parse, hnl, h1, h2, hts]

/-- After successful newline check, tags and prefix stages, `IRCMessage.parse`
reduces to the command check and the parameter loop. -/
theorem parse_cmd_some {source s1 s2 tok pp : List Char} {tags : TagsList}
    {po : Option IRCPrefix}
    (hnl : (source.any fun c => c == '\r' || c == '\n') = false)
    (h1 : parseTagsStage source = .ok (tags, s1))
    (h2 : parsePfxStage s1 = .ok (po, s2))
    (hts : splitFirst ' ' s2 = (tok, some pp)) :
    IRCMessage.parse source =
      if (tok.map Char.toUpper).isEmpty ||
          (!((tok.map Char.toUpper).all Char.isAlpha) &&
           !((tok.map Char.toUpper).all isAsciiNumeric))
      then .error .MalformedCommand
      else
        match parseParams pp with
        | .error e => .error e
        | .ok params => .ok ⟨tags, po, tok.map Char.toUpper, params⟩ := by
  simp [IRCMessage.parse, hnl, h1, h2, hts]

theorem parseTagsStage_ok {source : List Char} {tags : TagsList} {rem : List Char}
    (h : parseTagsStage source = .ok (tags, rem))
    (hnl : ∀ c ∈ source, c ≠ '\r' ∧ c ≠ '\n') :
    (∀ p ∈ tags, goodKey p.1 = true) ∧ (tagKeys tags).Nodup ∧
      (∀ c ∈ rem, c ∈ source) := by
  by_cases hat : source.head? = some '@'
  · match ho : splitOnce ' ' source.tail with
    | none => rw [parseTagsStage_at_none hat ho] at h; simp at h
    | some (tp, remainder) =>
      rw [parseTagsStage_at_some hat ho] at h
      split at h
      · simp at h
      · rename_i hne
        obtain ⟨rfl, rfl⟩ : IRCTags.parse tp = tags ∧ remainder = rem := by
          simpa using h
        obtain ⟨heq, hfree⟩ := splitOnce_some ho
        have hsubt : ∀ c ∈ tp, c ∈ source := fun c hc =>
          List.mem_of_mem_tail (by rw [heq]; exact List.mem_append_left _ hc)
        obtain ⟨hg, hn, -⟩ := @IRCTags_parse_inv tp
          (fun c hc => ⟨hfree c hc, hnl c (hsubt c hc)⟩)
        refine ⟨hg, hn, ?_⟩
        intro c hc
        exact List.mem_of_mem_tail
          (by rw [heq]; exact List.mem_append_right _ (List.mem_cons_of_mem _ hc))
  · rw [parseTagsStage_noat hat] at h
    obtain ⟨rfl, rfl⟩ : ([] : TagsList) = tags ∧ source = rem := by simpa using h
    exact ⟨by simp, by simp [tagKeys], fun c hc => hc⟩

theorem parsePfxStage_ok {source : List Char} {po : Option IRCPrefix} {rem : List Char}
    (h : parsePfxStage source = .ok (po, rem)) :
    (∀ c ∈ rem, c ∈ source) ∧
    ∀ pfx, po = some pfx →
      IRCPrefix.parse (IRCPrefix.formatAsRawIrc pfx) = pfx ∧
      IRCPrefix.formatAsRawIrc pfx ≠ [] ∧
      ∀ c ∈ IRCPrefix.formatAsRawIrc pfx, c ≠ ' ' ∧ c ∈ source := by
  by_cases hcolon : source.head? = some ':'
  · match ho : splitOnce ' ' source.tail with
    | none => rw [parsePfxStage_colon_none hcolon ho] at h; simp at h
    | some (pp, remainder) =>
      rw [parsePfxStage_colon_some hcolon ho] at h
      split at h
      · simp at h
      · rename_i hne
        obtain ⟨rfl, rfl⟩ : some (IRCPrefix.parse pp) = po ∧ remainder = rem := by
          simpa using h
        obtain ⟨heq, hfree⟩ := splitOnce_some ho
        constructor
        · intro c hc
          exact List.mem_of_mem_tail
            (by rw [heq]; exact List.mem_append_right _ (List.mem_cons_of_mem _ hc))
        · intro pfx hpfx
          obtain rfl : IRCPrefix.parse pp = pfx := by simpa using hpfx
          rw [IRCPrefix.format_parse]
          refine ⟨rfl, hne, ?_⟩
          intro c hc
          exact ⟨hfree c hc,
            List.mem_of_mem_tail (by rw [heq]; exact List.mem_append_left _ hc)⟩
  · rw [parsePfxStage_nocolon hcolon] at h
    obtain ⟨rfl, rfl⟩ : (none : Option IRCPrefix) = po ∧ source = rem := by
      simpa using h
    exact ⟨fun c hc => hc, by simp⟩

/-- Every message produced by `IRCMessage.parse` satisfies `MsgInv`. -/
theorem parse_ok_inv {source : List Char} {m : IRCMessage}
    (h : IRCMessage.parse source = .ok m) : MsgInv m := by
  have hnlf : (source.any fun c => c == '\r' || c == '\n') = false := by
    cases hb : source.any fun c => c == '\r' || c == '\n'
    · rfl
    · rw [parse_newlines hb] at h; simp at h
  have hnl : ∀ c ∈ source, c ≠ '\r' ∧ c ≠ '\n' := by
    intro c hc
    have := List.any_eq_false.mp hnlf c hc
    simp only [Bool.or_eq_true, beq_iff_eq] at this
    push_neg at this
    exact this
  match h1 : parseTagsStage source with
  | .error e => rw [parse_stage1_err hnlf h1] at h; simp at h
  | .ok (tags, s1) =>
    obtain ⟨htg, htn, hsub1⟩ := parseTagsStage_ok h1 hnl
    match h2 : parsePfxStage s1 with
    | .error e => rw [parse_stage2_err hnlf h1 h2] at h; simp at h
    | .ok (po, s2) =>
      obtain ⟨hsub2, hpo⟩ := parsePfxStage_ok h2
      have hpoInv : ∀ pfx, po = some pfx →
          IRCPrefix.parse (IRCPrefix.formatAsRawIrc pfx) = pfx ∧
          IRCPrefix.formatAsRawIrc pfx ≠ [] ∧
          ∀ c ∈ IRCPrefix.formatAsRawIrc pfx, c ≠ ' ' ∧ c ≠ '\r' ∧ c ≠ '\n' := by
        intro pfx hp
        obtain ⟨hparse, hne, hchars⟩ := hpo pfx hp
        refine ⟨hparse, hne, ?_⟩
        intro c hc
        obtain ⟨hsp, hmem⟩ := hchars c hc
        exact ⟨hsp, hnl c (hsub1 c hmem)⟩
      have hclsOf : ∀ tok : List Char,
          ¬((tok.map Char.toUpper).isEmpty ||
            (!((tok.map Char.toUpper).all Char.isAlpha) &&
             !((tok.map Char.toUpper).all isAsciiNumeric))) = true →
          tok.map Char.toUpper ≠ [] ∧
          ((tok.map Char.toUpper).all Char.isUpper = true ∨
            (tok.map Char.toUpper).all Char.isDigit = true) := by
        intro tok hvalid
        rw [Bool.or_eq_true] at hvalid
        push_neg at hvalid
        obtain ⟨hnemp, hand⟩ := hvalid
        refine ⟨fun hrfl => hnemp (by simp [hrfl]), ?_⟩
        have hres : (tok.map Char.toUpper).all Char.isAlpha = true ∨
            (tok.map Char.toUpper).all isAsciiNumeric = true := by
          cases hA : (tok.map Char.toUpper).all Char.isAlpha
          · cases hN : (tok.map Char.toUpper).all isAsciiNumeric
            · exact absurd (by simp [hA, hN]) hand
            · exact Or.inr rfl
          · exact Or.inl rfl
        rcases hres with hres | hres
        · left
          rw [List.all_eq_true]
          intro c hc
          obtain ⟨c', -, rfl⟩ := List.mem_map.mp hc
          exact isAlpha_toUpper_isUpper (List.all_eq_true.mp hres _ hc)
        · right
          rw [List.all_eq_true]
          intro c hc
          have := List.all_eq_true.mp hres _ hc
          simp only [isAsciiNumeric, Bool.and_eq_true] at this
          exact this.2
      match hts : splitFirst ' ' s2 with
      | (tok, none) =>
        rw [parse_cmd_none hnlf h1 h2 hts] at h
        split at h
        · simp at h
        · rename_i hvalid
          obtain ⟨hcmdne, hcls⟩ := hclsOf tok hvalid
          obtain rfl : m = ⟨tags, po, tok.map Char.toUpper, []⟩ := by
            simpa using h.symm
          exact ⟨htg, htn, hpoInv, hcmdne, hcls, by simp, by simp⟩
      | (tok, some paramsPart) =>
        rw [parse_cmd_some hnlf h1 h2 hts] at h
        split at h
        · simp at h
        · rename_i hvalid
          obtain ⟨hcmdne, hcls⟩ := hclsOf tok hvalid
          match hpp : parseParams paramsPart with
          | .error e => rw [hpp] at h; simp at h
          | .ok params =>
            rw [hpp] at h
            obtain rfl : m = ⟨tags, po, tok.map Char.toUpper, params⟩ := by
              simpa using h.symm
            obtain ⟨-, hmids, hsubp⟩ := paramsGo_ok_inv hpp
            have hppsub : ∀ c ∈ paramsPart, c ∈ source := by
              simp only [splitFirst] at hts
              match ho : splitOnce ' ' s2 with
              | none => rw [ho] at hts; simp at hts
              | some (a, b) =>
                rw [ho] at hts
                simp only [Prod.mk.injEq, Option.some.injEq] at hts
                obtain ⟨-, rfl⟩ := hts
                obtain ⟨heq, -⟩ := splitOnce_some ho
                intro c hc
                apply hsub1
                apply hsub2
                rw [heq]
                exact List.mem_append_right _ (List.mem_cons_of_mem _ hc)
            refine ⟨htg, htn, hpoInv, hcmdne, hcls, hmids, ?_⟩
            intro p hp c hc
            exact hnl c (hppsub c (hsubp p hp c hc))

/-! ### Serialize-then-parse lemmas -/

theorem map_toUpper_fixed {l : List Char} (h : ∀ c ∈ l, Char.toUpper c = c) :
    l.map Char.toUpper = l := by
  induction l with
  | nil => rfl
  | cons c rest ih => simp [h c (by simp), ih (fun x hx => h x (by simp [hx]))]

theorem cmd_chars_facts {cmd : List Char}
    (hcls : cmd.all Char.isUpper = true ∨ cmd.all Char.isDigit = true) :
    ∀ c ∈ cmd,
      Char.toUpper c = c ∧ c ≠ ' ' ∧ c ≠ ':' ∧ c ≠ '@' ∧ c ≠ '\r' ∧ c ≠ '\n' := by
  intro c hc
  rcases hcls with hall | hall
  · have hu := List.all_eq_true.mp hall c hc
    obtain ⟨h1, h2, h3, h4, h5⟩ := upper_ne_special hu
    exact ⟨toUpper_of_upper hu, h1, h2, h3, h4, h5⟩
  · have hd := List.all_eq_true.mp hall c hc
    obtain ⟨h1, h2, h3, h4, h5⟩ := digit_ne_special hd
    exact ⟨toUpper_of_digit hd, h1, h2, h3, h4, h5⟩

theorem cmd_valid_bool {cmd : List Char} (hne : cmd ≠ [])
    (hcls : cmd.all Char.isUpper = true ∨ cmd.all Char.isDigit = true) :
    (cmd.isEmpty || (!(cmd.all Char.isAlpha) && !(cmd.all isAsciiNumeric))) = false := by
  have hemp : cmd.isEmpty = false := isEmpty_false_of_ne_nil hne
  rcases hcls with hall | hall
  · have hA : cmd.all Char.isAlpha = true := by
      rw [List.all_eq_true]
      intro c hc
      have := List.all_eq_true.mp hall c hc
      simp [Char.isAlpha, this]
    simp [hemp, hA]
  · have hN : cmd.all isAsciiNumeric = true := by
      rw [List.all_eq_true]
      intro c hc
      have hd := List.all_eq_true.mp hall c hc
      simp only [isAsciiNumeric, Bool.and_eq_true]
      refine ⟨decide_eq_true ?_, hd⟩
      have := isDigit_iff.mp hd
      omega
    simp [hemp, hN]

theorem formatTags_chars {t : TagsList} (hgood : ∀ p ∈ t, goodKey p.1 = true) :
    ∀ c ∈ IRCTags.formatAsRawIrc t, c ≠ ' ' ∧ c ≠ '\r' ∧ c ≠ '\n' := by
  intro c hc
  rcases joinSep_chars hc with rfl | ⟨ch, hch, hcch⟩
  · exact ⟨by decide, by decide, by decide⟩
  · obtain ⟨p, hp, rfl⟩ := List.mem_map.mp hch
    obtain ⟨k, v⟩ := p
    match v with
    | none =>
      obtain ⟨-, -, h3, h4, h5⟩ := goodKey_spec (hgood (k, none) hp) c hcch
      exact ⟨h3, h4, h5⟩
    | some v =>
      simp only [IRCTags.formatTag] at hcch
      rcases List.mem_append.mp hcch with hck | hcv
      · obtain ⟨-, -, h3, h4, h5⟩ := goodKey_spec (hgood (k, some v) hp) c hck
        exact ⟨h3, h4, h5⟩
      · rcases List.mem_cons.mp hcv with rfl | hcv
        · exact ⟨by decide, by decide, by decide⟩
        · obtain ⟨-, h2, h3, h4⟩ := escapeTagValue_chars hcv
          exact ⟨h2, h3, h4⟩

theorem formatTags_ne_nil {t : TagsList} (hne : t ≠ []) (hbad : t ≠ [([], none)]) :
    IRCTags.formatAsRawIrc t ≠ [] := by
  match t with
  | [] => exact absurd rfl hne
  | [(k, v)] =>
    show joinSep ';' [IRCTags.formatTag (k, v)] ≠ []
    simp only [joinSep]
    match k, v with
    | [], none => exact absurd rfl hbad
    | [], some v => simp [IRCTags.formatTag]
    | c :: k', v =>
      match v with
      | none => simp [IRCTags.formatTag]
      | some v => simp [IRCTags.formatTag]
  | p :: q :: rest =>
    show joinSep ';' (IRCTags.formatTag p :: (q :: rest).map IRCTags.formatTag) ≠ []
    simp only [List.map_cons, joinSep]
    simp

theorem formatParams_chars {ps : List (List Char)}
    (h : ∀ p ∈ ps, ∀ c ∈ p, c ≠ '\r' ∧ c ≠ '\n') :
    ∀ c ∈ formatParams ps, c ≠ '\r' ∧ c ≠ '\n' := by
  induction ps with
  | nil => simp [formatParams]
  | cons p rest ih =>
    intro c hc
    simp only [formatParams] at hc
    split at hc
    · rcases List.mem_cons.mp hc with rfl | hc
      · exact ⟨by decide, by decide⟩
      · rcases List.mem_append.mp hc with hc | hc
        · exact h p (by simp) c hc
        · exact ih (fun q hq => h q (by simp [hq])) c hc
    · rcases List.mem_cons.mp hc with rfl | hc
      · exact ⟨by decide, by decide⟩
      · rcases List.mem_cons.mp hc with rfl | hc
        · exact ⟨by decide, by decide⟩
        · exact h p (by simp) c hc

theorem ne_nil_of_isEmpty_eq_false {l : List Char} (h : l.isEmpty = false) :
    l ≠ [] := by
  intro hrfl
  subst hrfl
  simp at h

theorem isMiddleParam_spec {p : List Char} (h : isMiddleParam p = true) :
    (∀ c ∈ p, c ≠ ' ') ∧ p ≠ [] ∧ p.head? ≠ some ':' := by
  simp only [isMiddleParam, Bool.and_eq_true, Bool.not_eq_true'] at h
  obtain ⟨⟨hcon, hemp⟩, hhd⟩ := h
  refine ⟨?_, ne_nil_of_isEmpty_eq_false hemp, beq_eq_false_iff_ne.mp hhd⟩
  intro c hc hsp
  subst hsp
  have hct : p.contains ' ' = true :=
    List.contains_iff_exists_mem_beq.mpr ⟨' ', hc, by simp⟩
  rw [hct] at hcon
  simp at hcon

theorem formatParams_reparse {ps : List (List Char)} (hne : ps ≠ [])
    (hmid : ∀ p ∈ ps.dropLast, isMiddleParam p = true) :
    ∃ X, formatParams ps = ' ' :: X ∧ parseParams X = .ok ps := by
  induction ps with
  | nil => exact absurd rfl hne
  | cons p rest ih =>
    match rest with
    | [] =>
      by_cases hm : isMiddleParam p = true
      · obtain ⟨hsp, hpne, hhd⟩ := isMiddleParam_spec hm
        refine ⟨p, by simp [formatParams, hm], ?_⟩
        unfold parseParams
        rw [paramsGo_succ_nosp hhd (splitOnce_eq_none hsp), if_neg hpne]
      · refine ⟨':' :: p, by simp [formatParams, hm], ?_⟩
        unfold parseParams
        rw [paramsGo_succ_colon (by simp)]
        simp
    | q :: rest' =>
      have hm : isMiddleParam p = true := by
        apply hmid p
        rw [List.dropLast_cons_of_ne_nil (by simp)]
        simp
      obtain ⟨hsp, hpne, hhd⟩ := isMiddleParam_spec hm
      have hmid' : ∀ r ∈ (q :: rest').dropLast, isMiddleParam r = true := by
        intro r hr
        apply hmid r
        rw [List.dropLast_cons_of_ne_nil (by simp)]
        simp [hr]
      obtain ⟨X', hfmt, hparse⟩ := ih (by simp) hmid'
      refine ⟨p ++ ' ' :: X', ?_, ?_⟩
      · have hstep : formatParams (p :: q :: rest') = ' ' :: p ++ formatParams (q :: rest') := by
          simp only [formatParams, if_pos hm]
        rw [hstep, hfmt]
        simp
      · unfold parseParams
        have hX : (p ++ ' ' :: X').head? ≠ some ':' := by
          match p, hpne with
          | c :: p', _ =>
            have hcne : c ≠ ':' := by simpa using hhd
            simpa using hcne
        rw [paramsGo_succ_sp hX (splitOnce_append _ hsp), if_neg hpne]
        have hfuel : paramsGo (p ++ ' ' :: X').length X' = parseParams X' := by
          apply paramsGo_mono
          · match p, hpne with
            | c :: p', _ =>
              simp
              omega
          · simp
        rw [hfuel, hparse]

/-- Once the tags and prefix stages succeed with the message's own fields and
the remainder is the serialized command and parameters, parsing completes and
rebuilds the message. -/
theorem parse_tail_ok {source s1 : List Char} {m : IRCMessage}
    (hnlf : (source.any fun c => c == '\r' || c == '\n') = false)
    (h1 : parseTagsStage source = .ok (m.tags, s1))
    (h2 : parsePfxStage s1 = .ok (m.prefix_, m.command ++ formatParams m.params))
    (hcne : m.command ≠ [])
    (hcls : m.command.all Char.isUpper = true ∨ m.command.all Char.isDigit = true)
    (hmidv : ∀ p ∈ m.params.dropLast, isMiddleParam p = true) :
    IRCMessage.parse source = .ok m := by
  have hcf := cmd_chars_facts hcls
  have hcmdfix := map_toUpper_fixed (fun c hc => (hcf c hc).1)
  have hvalid := cmd_valid_bool hcne hcls
  have hspfree : ∀ c ∈ m.command, c ≠ ' ' := fun c hc => (hcf c hc).2.1
  cases hpe : m.params with
  | nil =>
    have hsplit : splitFirst ' ' (m.command ++ formatParams m.params) =
        (m.command, none) := by
      rw [hpe]
      show splitFirst ' ' (m.command ++ []) = _
      rw [List.append_nil]
      unfold splitFirst
      rw [splitOnce_eq_none hspfree]
    rw [parse_cmd_none hnlf h1 h2 hsplit, hcmdfix, hvalid, ← hpe]
    simp
  | cons p0 prest =>
    have hne' : m.params ≠ [] := by rw [hpe]; simp
    obtain ⟨X, hPX, hparseX⟩ := formatParams_reparse hne' hmidv
    have hsplit : splitFirst ' ' (m.command ++ formatParams m.params) =
        (m.command, some X) := by
      rw [hPX]
      unfold splitFirst
      rw [splitOnce_append X hspfree]
    rw [parse_cmd_some hnlf h1 h2 hsplit, hcmdfix, hvalid, hparseX]
    simp

/-- Serialize-then-parse: every message satisfying `MsgInv` whose tag map is
not the single empty-key valueless tag is rebuilt exactly by
`IRCMessage.parse` from its own serialization. -/
theorem asRawIrc_parse {m : IRCMessage} (hinv : MsgInv m)
    (hbad : m.tags ≠ [([], none)]) :
    IRCMessage.parse m.asRawIrc = .ok m := by
  obtain ⟨htg, htn, hpo, hcne, hcls, hmidv, hpnl⟩ := hinv
  have hcf := cmd_chars_facts hcls
  obtain ⟨c0, cr, hcmd⟩ : ∃ c0 cr, m.command = c0 :: cr := by
    match hx : m.command, hcne with
    | c0 :: cr, _ => exact ⟨c0, cr, rfl⟩
  have hc0 := hcf c0 (by rw [hcmd]; simp)
  have hrest2hd : ∀ tail : List Char, (m.command ++ tail).head? = some c0 := by
    intro tail
    rw [hcmd]
    rfl
  have htchars := formatTags_chars htg
  -- newline freedom of the whole serialization
  have hsrcnl : ∀ c ∈ m.asRawIrc, c ≠ '\r' ∧ c ≠ '\n' := by
    intro c hc
    unfold IRCMessage.asRawIrc at hc
    rcases List.mem_append.mp hc with hc | hcP
    · rcases List.mem_append.mp hc with hc | hcCmd
      · rcases List.mem_append.mp hc with hcT | hcPfx
        · split at hcT
          · simp at hcT
          · rcases List.mem_cons.mp hcT with rfl | hcT
            · exact ⟨by decide, by decide⟩
            · rcases List.mem_append.mp hcT with hcT | hcT
              · exact (htchars c hcT).2
              · rcases List.mem_singleton.mp hcT with rfl
                exact ⟨by decide, by decide⟩
        · match hpoc : m.prefix_ with
          | none => rw [hpoc] at hcPfx; simp at hcPfx
          | some pfx =>
            rw [hpoc] at hcPfx
            obtain ⟨-, -, hpchars⟩ := hpo pfx hpoc
            simp only at hcPfx
            rcases List.mem_cons.mp hcPfx with rfl | hcPfx
            · exact ⟨by decide, by decide⟩
            · rcases List.mem_append.mp hcPfx with hcPfx | hcPfx
              · exact (hpchars c hcPfx).2
              · rcases List.mem_singleton.mp hcPfx with rfl
                exact ⟨by decide, by decide⟩
      · obtain ⟨-, -, -, -, h5, h6⟩ := hcf c hcCmd
        exact ⟨h5, h6⟩
    · exact formatParams_chars hpnl c hcP
  have hnlf : (m.asRawIrc.any fun c => c == '\r' || c == '\n') = false := by
    apply List.any_eq_false.mpr
    intro c hc
    obtain ⟨h1, h2⟩ := hsrcnl c hc
    simp [h1, h2]
  -- the prefix stage succeeds on its part of the serialization
  have hS2 : parsePfxStage
      ((match m.prefix_ with
        | some pfx => ':' :: IRCPrefix.formatAsRawIrc pfx ++ [' ']
        | none => []) ++ (m.command ++ formatParams m.params)) =
      .ok (m.prefix_, m.command ++ formatParams m.params) := by
    cases hpoc : m.prefix_ with
    | none =>
      show parsePfxStage ([] ++ (m.command ++ formatParams m.params)) = _
      rw [List.nil_append]
      rw [parsePfxStage_nocolon]
      rw [hrest2hd]
      simp [hc0.2.2.1]
    | some pfx =>
      obtain ⟨hpparse, hpne, hpchars⟩ := hpo pfx hpoc
      show parsePfxStage ((':' :: IRCPrefix.formatAsRawIrc pfx ++ [' ']) ++
        (m.command ++ formatParams m.params)) = _
      have hform : (':' :: IRCPrefix.formatAsRawIrc pfx ++ [' ']) ++
          (m.command ++ formatParams m.params) =
          ':' :: (IRCPrefix.formatAsRawIrc pfx ++
            ' ' :: (m.command ++ formatParams m.params)) := by
        simp
      rw [hform]
      have hhd : (':' :: (IRCPrefix.formatAsRawIrc pfx ++
          ' ' :: (m.command ++ formatParams m.params))).head? = some ':' := rfl
      rw [parsePfxStage_colon_some hhd
        (splitOnce_append _ (fun c hc => (hpchars c hc).1))]
      rw [if_neg hpne, hpparse]
  -- assemble, by cases on whether the tag map is empty
  match htc : m.tags with
  | [] =>
    have hsrc : m.asRawIrc =
        (match m.prefix_ with
         | some pfx => ':' :: IRCPrefix.formatAsRawIrc pfx ++ [' ']
         | none => []) ++ (m.command ++ formatParams m.params) := by
      unfold IRCMessage.asRawIrc
      rw [htc]
      simp
    rw [hsrc] at hnlf ⊢
    have h1 : parseTagsStage
        ((match m.prefix_ with
          | some pfx => ':' :: IRCPrefix.formatAsRawIrc pfx ++ [' ']
          | none => []) ++ (m.command ++ formatParams m.params)) =
        .ok (m.tags, (match m.prefix_ with
          | some pfx => ':' :: IRCPrefix.formatAsRawIrc pfx ++ [' ']
          | none => []) ++ (m.command ++ formatParams m.params)) := by
      rw [htc]
      apply parseTagsStage_noat
      cases hpoc : m.prefix_ with
      | none =>
        show ¬([] ++ (m.command ++ formatParams m.params)).head? = some '@'
        rw [List.nil_append, hrest2hd]
        simp [hc0.2.2.2.1]
      | some pfx =>
        show ¬((':' :: IRCPrefix.formatAsRawIrc pfx ++ [' ']) ++
          (m.command ++ formatParams m.params)).head? = some '@'
        simp
    exact parse_tail_ok hnlf h1 hS2 hcne hcls hmidv
  | t0 :: trest =>
    have htne : m.tags ≠ [] := by rw [htc]; simp
    have hTSne : IRCTags.formatAsRawIrc m.tags ≠ [] := formatTags_ne_nil htne hbad
    have hsrc : m.asRawIrc =
        '@' :: (IRCTags.formatAsRawIrc m.tags ++ ' ' ::
          ((match m.prefix_ with
            | some pfx => ':' :: IRCPrefix.formatAsRawIrc pfx ++ [' ']
            | none => []) ++ (m.command ++ formatParams m.params))) := by
      unfold IRCMessage.asRawIrc
      have hemp : m.tags.isEmpty = false := by rw [htc]; rfl
      rw [hemp]
      simp
    rw [hsrc] at hnlf ⊢
    have h1 : parseTagsStage
        ('@' :: (IRCTags.formatAsRawIrc m.tags ++ ' ' ::
          ((match m.prefix_ with
            | some pfx => ':' :: IRCPrefix.formatAsRawIrc pfx ++ [' ']
            | none => []) ++ (m.command ++ formatParams m.params)))) =
        .ok (m.tags,
          (match m.prefix_ with
           | some pfx => ':' :: IRCPrefix.formatAsRawIrc pfx ++ [' ']
           | none => []) ++ (m.command ++ formatParams m.params)) := by
      have hhd : ('@' :: (IRCTags.formatAsRawIrc m.tags ++ ' ' ::
          ((match m.prefix_ with
            | some pfx => ':' :: IRCPrefix.formatAsRawIrc pfx ++ [' ']
            | none => []) ++ (m.command ++ formatParams m.params)))).head? =
          some '@' := rfl
      rw [parseTagsStage_at_some hhd
        (splitOnce_append _ (fun c hc => (htchars c hc).1))]
      rw [if_neg hTSne]
      rw [tags_roundtrip htg htn htne]
    exact parse_tail_ok hnlf h1 hS2 hcne hcls hmidv

/-- C1: the round-trip contract as stated — "for every ProtocolMessage m
obtainable from Parse, parse(serialize(m)) is structurally equal to m" — is
refuted by the input `"@; FOO"`: it parses to the message whose tag map is
exactly the single empty-key valueless tag, which serializes to `"@ FOO"`,
and re-parsing that fails with `EmptyTagsDeclaration` instead of returning
the message. -/
theorem C1_roundtrip_counterexample :
    IRCMessage.parse (cs "@; FOO") =
      .ok (IRCMessage.mk [([], none)] none (cs "FOO") []) ∧
    (IRCMessage.mk [([], none)] none (cs "FOO") []).asRawIrc = cs "@ FOO" ∧
    IRCMessage.parse ((IRCMessage.mk [([], none)] none (cs "FOO") []).asRawIrc) =
      .error .EmptyTagsDeclaration := by
  exact ⟨by decide, by decide, by decide⟩

/-- C1 (amended): for every message `m` obtainable as a successful result of
`IRCMessage.parse`, except when its tag map is exactly the single empty-key
valueless tag (which serializes to an empty tags segment), serializing `m`
and parsing the result again yields exactly `m` — same tags, same optional
prefix, same command, same ordered params. -/
theorem C1_roundtrip_amended {source : List Char} {m : IRCMessage}
    (h : IRCMessage.parse source = .ok m) (hbad : m.tags ≠ [([], none)]) :
    IRCMessage.parse m.asRawIrc = .ok m :=
  asRawIrc_parse (parse_ok_inv h) hbad

/-- Witness for C1 (amended) at the spec's own example `"PING :tmi.twitch.tv"`. -/
theorem C1_roundtrip_amended_witness :
    IRCMessage.parse
        ((IRCMessage.mk [] none (cs "PING") [cs "tmi.twitch.tv"]).asRawIrc) =
      .ok (IRCMessage.mk [] none (cs "PING") [cs "tmi.twitch.tv"]) :=
  @C1_roundtrip_amended (cs "PING :tmi.twitch.tv") _ (by decide) (by decide)

theorem runIncoming_open {s : ConnectionLoopOpenState} {msgs : List IRCMessage}
    (hno : ∀ m ∈ msgs, isReconnectResult m = false) :
    (runIncoming (.Open s) msgs).1 =
      .Open ⟨s.pongReceived || msgs.any isPongResult⟩ := by
  induction msgs generalizing s with
  | nil => simp [runIncoming]
  | cons m rest ih =>
    have hnr : isReconnectResult m = false := hno m (by simp)
    have hrest : ∀ m' ∈ rest, isReconnectResult m' = false :=
      fun m' hm' => hno m' (by simp [hm'])
    simp only [runIncoming, ConnectionLoopState.step,
      ConnectionLoopOpenState.on_incoming_message]
    match htf : ServerMessage.tryFrom m with
    | .error em =>
      simp only [htf]
      rw [ih hrest]
      simp [isPongResult, htf]
    | .ok sm =>
      cases sm with
      | Ping m' =>
        simp only [htf, ConnectionLoopOpenState.send_message]
        rw [ih hrest]
        simp [isPongResult, htf]
      | Pong m' =>
        simp only [htf]
        rw [ih hrest]
        simp [isPongResult, htf]
      | Reconnect m' =>
        have hT : isReconnectResult m = true := by
          rw [isReconnectResult.eq_def, htf]
        rw [hT] at hnr
        simp at hnr
      | Privmsg m' =>
        simp only [htf]
        rw [ih hrest]
        simp [isPongResult, htf]
      | Generic m' =>
        simp only [htf]
        rw [ih hrest]
        simp [isPongResult, htf]

theorem on_incoming_not_init (s : ConnectionLoopOpenState)
    (mm : Option (Except TError IRCMessage)) :
    ∀ s', (s.on_incoming_message mm).1 ≠ .Initializing s' := by
  unfold ConnectionLoopOpenState.on_incoming_message
  match mm with
  | none => simp [ConnectionLoopOpenState.transition_to_closed]
  | some (.error e) => simp [ConnectionLoopOpenState.transition_to_closed]
  | some (.ok msg) =>
    match htf : ServerMessage.tryFrom msg with
    | .error em => simp [htf]
    | .ok sm =>
      cases sm <;>
        simp [htf, ConnectionLoopOpenState.send_message,
          ConnectionLoopOpenState.transition_to_closed]

theorem step_not_initializing {st : ConnectionLoopState}
    {cmd : ConnectionLoopCommand} {st' : ConnectionLoopState} {effs : List Effect}
    (hst : ∀ s, st ≠ .Initializing s)
    (h : ConnectionLoopState.step st cmd = some (st', effs)) :
    ∀ s, st' ≠ .Initializing s := by
  match st with
  | .Initializing s => exact absurd rfl (hst s)
  | .Open s =>
    match cmd with
    | .SendMessage m r =>
      obtain ⟨rfl, -⟩ : ConnectionLoopState.Open (s.send_message m r).1 = st' ∧
          (s.send_message m r).2 = effs := by
        simpa [ConnectionLoopState.step] using h
      simp
    | .TransportInitFinished res => simp [ConnectionLoopState.step] at h
    | .SendError =>
      obtain ⟨rfl, -⟩ : ConnectionLoopState.Closed ⟨.OutgoingError⟩ = st' ∧
          [Effect.pool (.StateClosed .OutgoingError)] = effs := by
        simpa [ConnectionLoopState.step, ConnectionLoopOpenState.on_send_error,
          ConnectionLoopOpenState.transition_to_closed] using h
      simp
    | .IncomingMessage mm =>
      have hne := on_incoming_not_init s mm
      have heq : (s.on_incoming_message mm).1 = st' := by
        have hym : ConnectionLoopState.step (.Open s) (.IncomingMessage mm) =
            some (s.on_incoming_message mm) := rfl
        rw [hym] at h
        rw [Option.some.inj h]
      rw [← heq]
      exact hne
    | .SendPing =>
      obtain ⟨rfl, -⟩ : ConnectionLoopState.Open (ConnectionLoopOpenState.send_ping s).1 = st' ∧
          (ConnectionLoopOpenState.send_ping s).2 = effs := by
        simpa [ConnectionLoopState.step] using h
      simp
    | .CheckPong =>
      have heq : (ConnectionLoopOpenState.check_pong s).1 = st' := by
        have hym : ConnectionLoopState.step (.Open s) .CheckPong =
            some (ConnectionLoopOpenState.check_pong s) := rfl
        rw [hym] at h
        rw [Option.some.inj h]
      rw [← heq]
      unfold ConnectionLoopOpenState.check_pong
      split
      · simp [ConnectionLoopOpenState.transition_to_closed]
      · simp
  | .Closed s =>
    match cmd with
    | .SendMessage m r =>
      obtain ⟨rfl, -⟩ : ConnectionLoopState.Closed (s.send_message m r).1 = st' ∧
          (s.send_message m r).2 = effs := by
        simpa [ConnectionLoopState.step] using h
      simp
    | .TransportInitFinished res =>
      obtain ⟨rfl, -⟩ : ConnectionLoopState.Closed s = st' ∧ ([] : List Effect) = effs := by
        simpa [ConnectionLoopState.step] using h
      simp
    | .SendError =>
      obtain ⟨rfl, -⟩ : ConnectionLoopState.Closed s = st' ∧ ([] : List Effect) = effs := by
        simpa [ConnectionLoopState.step] using h
      simp
    | .IncomingMessage mm =>
      obtain ⟨rfl, -⟩ : ConnectionLoopState.Closed s = st' ∧ ([] : List Effect) = effs := by
        simpa [ConnectionLoopState.step] using h
      simp
    | .SendPing =>
      obtain ⟨rfl, -⟩ : ConnectionLoopState.Closed s = st' ∧ ([] : List Effect) = effs := by
        simpa [ConnectionLoopState.step] using h
      simp
    | .CheckPong =>
      obtain ⟨rfl, -⟩ : ConnectionLoopState.Closed s = st' ∧ ([] : List Effect) = effs := by
        simpa [ConnectionLoopState.step] using h
      simp

theorem loopInv_reachable {c : LoopConfig} (h : LoopReachable c) : LoopInv c := by
  induction h with
  | start => exact ⟨fun _ => rfl, by simp [LoopConfig.start]⟩
  | step hr hs ih =>
    obtain ⟨ih1, ih2⟩ := ih
    rename_i c0 c1
    cases hs with
    | enqueueSend m r =>
      refine ⟨ih1, ?_⟩
      intro cmd hcmd hsp
      rcases List.mem_append.mp hcmd with hcmd | hcmd
      · exact ih2 cmd hcmd hsp
      · rcases List.mem_singleton.mp hcmd with rfl
        simp [ConnectionLoopCommand.fromSpawnedTask] at hsp
    | enqueueInit res hinit =>
      refine ⟨ih1, ?_⟩
      intro cmd hcmd hsp
      rcases List.mem_append.mp hcmd with hcmd | hcmd
      · exact ih2 cmd hcmd hsp
      · rcases List.mem_singleton.mp hcmd with rfl
        simp [ConnectionLoopCommand.fromSpawnedTask] at hsp
    | enqueueTask cmd0 hcmd0 hsp0 =>
      refine ⟨ih1, ?_⟩
      intro cmd hcmd hsp
      rcases List.mem_append.mp hcmd with hcmd | hcmd
      · exact ih2 cmd hcmd hsp
      · exact hsp0
    | process cmd rest st' effs hq hstep =>
      constructor
      · rintro ⟨s', hs'⟩
        simp only at hs'
        show (c0.tasksSpawned || spawnsTasks c0.state cmd) = false
        match hcst : c0.state with
        | .Initializing s0 =>
          have hspf : c0.tasksSpawned = false := ih1 ⟨s0, hcst⟩
          rw [hcst] at hstep
          match cmd with
          | .SendMessage m r => simp [hspf, hcst, spawnsTasks]
          | .TransportInitFinished res =>
            match res with
            | .ok creds =>
              exfalso
              have hy : ConnectionLoopState.step (.Initializing s0)
                  (.TransportInitFinished (.ok creds)) =
                  some (s0.on_transport_init_finished (.ok creds)) := rfl
              rw [hy] at hstep
              have h1 : ConnectionLoopState.Open ⟨false⟩ = st' :=
                congrArg Prod.fst (Option.some.inj hstep)
              rw [← h1] at hs'
              exact ConnectionLoopState.noConfusion hs'
            | .error e =>
              exfalso
              have hy : ConnectionLoopState.step (.Initializing s0)
                  (.TransportInitFinished (.error e)) =
                  some (s0.transition_to_closed e) := rfl
              rw [hy] at hstep
              have h1 : ConnectionLoopState.Closed ⟨e⟩ = st' :=
                congrArg Prod.fst (Option.some.inj hstep)
              rw [← h1] at hs'
              exact ConnectionLoopState.noConfusion hs'
          | .SendError =>
            exfalso
            have hy : ConnectionLoopState.step (.Initializing s0) .SendError =
                some (s0.transition_to_closed .OutgoingError) := rfl
            rw [hy] at hstep
            have h1 : ConnectionLoopState.Closed ⟨.OutgoingError⟩ = st' :=
              congrArg Prod.fst (Option.some.inj hstep)
            rw [← h1] at hs'
            exact ConnectionLoopState.noConfusion hs'
          | .IncomingMessage mm => simp [ConnectionLoopState.step] at hstep
          | .SendPing => simp [ConnectionLoopState.step] at hstep
          | .CheckPong => simp [ConnectionLoopState.step] at hstep
        | .Open s0 =>
          exfalso
          rw [hcst] at hstep
          exact step_not_initializing (by simp) hstep s' hs'
        | .Closed s0 =>
          exfalso
          rw [hcst] at hstep
          exact step_not_initializing (by simp) hstep s' hs'
      · intro cmd' hcmd' hsp'
        simp only at hcmd' ⊢
        have hmem : cmd' ∈ c0.queue := by
          rw [hq]
          exact List.mem_cons_of_mem _ hcmd'
        rw [ih2 cmd' hmem hsp']
        rfl

/-! ## Claim theorems for the state machine and codec -/

theorem tryFrom_reconnect_inv {m m' : IRCMessage}
    (h : ServerMessage.tryFrom m = .ok (.Reconnect m')) :
    m' = m ∧ ServerMessage.tryFrom m = .ok (.Reconnect m) := by
  unfold ServerMessage.tryFrom at h ⊢
  split_ifs at h ⊢ <;> simp_all

/-- C2: the claim that "only transport-level errors and end-of-stream cause
a transition to Closed" is refuted: an inbound message that parses cleanly
as a RECONNECT directive also transitions the Open state to Closed. -/
theorem C2_only_errors_close_counterexample :
    ConnectionLoopState.step (.Open ⟨false⟩)
        (.IncomingMessage (some (.ok (IRCMessage.new_simple (cs "RECONNECT") [])))) =
      some (.Closed ⟨.ReconnectCmd⟩,
        [.pool (.IncomingMessage (.Reconnect (IRCMessage.new_simple (cs "RECONNECT") []))),
         .pool (.StateClosed .ReconnectCmd)]) := by
  decide

/-- C2 (amended): in the Open state, an inbound line that fails
`ServerMessage` interpretation is not fatal — it is wrapped as a generic
message, forwarded to the pool, and the state stays Open unchanged; and
among inbound events the only ones that transition to Closed are
end-of-stream, transport-reported errors (which include IRC-grammar parse
failures surfaced by the transport), and a RECONNECT directive. -/
theorem C2_malformed_not_fatal (s : ConnectionLoopOpenState) :
    (∀ m em, ServerMessage.tryFrom m = .error em →
      ConnectionLoopState.step (.Open s) (.IncomingMessage (some (.ok m))) =
        some (.Open s, [.pool (.IncomingMessage (ServerMessage.newGeneric em))])) ∧
    (∀ ev st' effs,
      ConnectionLoopState.step (.Open s) (.IncomingMessage ev) = some (st', effs) →
      (∃ cls, st' = .Closed cls) →
      ev = none ∨ (∃ e, ev = some (.error e)) ∨
        (∃ m, ev = some (.ok m) ∧
          ServerMessage.tryFrom m = .ok (.Reconnect m))) := by
  constructor
  · intro m em htf
    simp [ConnectionLoopState.step, ConnectionLoopOpenState.on_incoming_message, htf]
  · intro ev st' effs hstep hcl
    obtain ⟨cls, rfl⟩ := hcl
    match ev with
    | none => exact Or.inl rfl
    | some (.error e) => exact Or.inr (Or.inl ⟨e, rfl⟩)
    | some (.ok m) =>
      refine Or.inr (Or.inr ⟨m, rfl, ?_⟩)
      have hy : ConnectionLoopState.step (.Open s) (.IncomingMessage (some (.ok m))) =
          some (s.on_incoming_message (some (.ok m))) := rfl
      rw [hy] at hstep
      have heq := Option.some.inj hstep
      match htf : ServerMessage.tryFrom m with
      | .error em =>
        exfalso
        rw [ConnectionLoopOpenState.on_incoming_message] at heq
        rw [htf] at heq
        simp at heq
      | .ok sm =>
        rw [ConnectionLoopOpenState.on_incoming_message] at heq
        rw [htf] at heq
        cases sm with
        | Ping m' =>
          exfalso
          simp [ConnectionLoopOpenState.send_message] at heq
        | Pong m' => exfalso; simp at heq
        | Reconnect m' => rw [(tryFrom_reconnect_inv htf).1]
        | Privmsg m' => exfalso; simp at heq
        | Generic m' => exfalso; simp at heq

/-- Witness for C2 (amended) at a message failing interpretation: a PRIVMSG
without parameters is forwarded as a generic message, the state stays Open. -/
theorem C2_malformed_not_fatal_witness :
    ConnectionLoopState.step (.Open ⟨false⟩)
        (.IncomingMessage (some (.ok (IRCMessage.new_simple (cs "PRIVMSG") [])))) =
      some (.Open ⟨false⟩,
        [.pool (.IncomingMessage
          (ServerMessage.newGeneric (IRCMessage.new_simple (cs "PRIVMSG") [])))]) :=
  (C2_malformed_not_fatal ⟨false⟩).1 _ _ (by decide)

/-- C3: a successful init result in Initializing transitions to Open (pong
flag cleared) and enqueues toward the transport, in order: the
tags/commands capability request, the password exactly when a token is
present, the nickname, the membership capability request, and then every
send queued while Initializing in FIFO order; and a send submitted while
Initializing is appended to the queue (FIFO) with no other effect. -/
theorem C3_init_success_order (q : List (IRCMessage × Option Nat))
    (credentials : CredentialsPair) :
    ConnectionLoopState.step (.Initializing ⟨q⟩)
        (.TransportInitFinished (.ok credentials)) =
      some (.Open ⟨false⟩,
        [.transportEnqueue
            (IRCMessage.new_simple (cs "CAP")
              [cs "REQ", cs "twitch.tv/tags twitch.tv/commands"]) none] ++
        (match credentials.token with
         | some token =>
           [.transportEnqueue
              (IRCMessage.new_simple (cs "PASS") [cs "oauth:" ++ token]) none]
         | none => []) ++
        [.transportEnqueue
            (IRCMessage.new_simple (cs "NICK") [credentials.login]) none,
         .transportEnqueue
            (IRCMessage.new_simple (cs "CAP") [cs "REQ", cs "twitch.tv/membership"]) none] ++
        q.map fun p => .transportEnqueue p.1 p.2) ∧
    (∀ (s : ConnectionLoopInitializingState) (m : IRCMessage) (r : Option Nat),
      s.send_message m r = (⟨s.commandsQueue ++ [(m, r)]⟩, [])) :=
  ⟨rfl, fun _ _ _ => rfl⟩

/-- C4: from any Open state, a ping tick clears the pong flag and sends
PING; after processing any sequence of inbound messages none of which is a
RECONNECT directive, a pong-check tick transitions to Closed with the
keepalive-timeout reason exactly when no PONG was among them, and stays
Open otherwise. -/
theorem C4_keepalive (s : ConnectionLoopOpenState) (msgs : List IRCMessage)
    (hno : ∀ m ∈ msgs, isReconnectResult m = false) :
    ConnectionLoopOpenState.send_ping s =
      (⟨false⟩,
       [.transportEnqueue
          (IRCMessage.new_simple (cs "PING") [cs "tmi.twitch.tv"]) none]) ∧
    (runIncoming (.Open ⟨false⟩) msgs).1 = .Open ⟨msgs.any isPongResult⟩ ∧
    ConnectionLoopOpenState.check_pong ⟨msgs.any isPongResult⟩ =
      (if msgs.any isPongResult then (.Open ⟨msgs.any isPongResult⟩, [])
       else (.Closed ⟨.PingTimeout⟩, [.pool (.StateClosed .PingTimeout)])) := by
  refine ⟨rfl, ?_, ?_⟩
  · rw [runIncoming_open hno]
    simp
  · cases hb : msgs.any isPongResult <;>
      simp [ConnectionLoopOpenState.check_pong,
        ConnectionLoopOpenState.transition_to_closed, hb]

/-- Witness for C4: a single inbound PONG sets the flag and the pong check
stays Open. -/
theorem C4_keepalive_witness :
    ConnectionLoopOpenState.send_ping ⟨true⟩ =
      (⟨false⟩,
       [.transportEnqueue
          (IRCMessage.new_simple (cs "PING") [cs "tmi.twitch.tv"]) none]) ∧
    (runIncoming (.Open ⟨false⟩) [IRCMessage.new_simple (cs "PONG") []]).1 =
      .Open ⟨true⟩ ∧
    ConnectionLoopOpenState.check_pong ⟨true⟩ = (.Open ⟨true⟩, []) := by
  have h := C4_keepalive ⟨true⟩ [IRCMessage.new_simple (cs "PONG") []] (by decide)
  have hany : [IRCMessage.new_simple (cs "PONG") []].any isPongResult = true := by
    decide
  refine ⟨h.1, ?_, ?_⟩
  · have h2 := h.2.1
    rw [hany] at h2
    exact h2
  · have h3 := h.2.2
    rw [hany] at h3
    simpa using h3

/-- C5: Closed is terminal — processing any command in a Closed state yields
the same Closed state with the same stored closure reason. -/
theorem C5_closed_terminal (reason : TError) (command : ConnectionLoopCommand) :
    ∃ effects, ConnectionLoopState.step (.Closed ⟨reason⟩) command =
      some (.Closed ⟨reason⟩, effects) := by
  cases command with
  | SendMessage m r =>
    cases r with
    | none => exact ⟨[], rfl⟩
    | some sender => exact ⟨[.reply sender (.error reason)], rfl⟩
  | TransportInitFinished res => exact ⟨[], rfl⟩
  | SendError => exact ⟨[], rfl⟩
  | IncomingMessage mm => exact ⟨[], rfl⟩
  | SendPing => exact ⟨[], rfl⟩
  | CheckPong => exact ⟨[], rfl⟩

/-- C6: a send processed in the Closed state resolves its reply sender,
when present, immediately with the stored closure reason, and in either
case produces no transport enqueue. -/
theorem C6_closed_send (reason : TError) (m : IRCMessage) (sender : Nat) :
    ConnectionLoopClosedState.send_message ⟨reason⟩ m (some sender) =
      (⟨reason⟩, [.reply sender (.error reason)]) ∧
    ConnectionLoopClosedState.send_message ⟨reason⟩ m none = (⟨reason⟩, []) :=
  ⟨rfl, rfl⟩

/-- C7: the serializer emits each parameter in middle form while it
satisfies the middle condition, and at the first parameter violating it
emits the trailing form and stops, so parameters after that position are
absent from the output. -/
theorem C7_formatParams (params : List (List Char)) :
    formatParams params =
      ((params.takeWhile isMiddleParam).map fun p => ' ' :: p).flatten ++
      (match params.dropWhile isMiddleParam with
       | [] => []
       | p :: _ => ' ' :: ':' :: p) := by
  induction params with
  | nil => rfl
  | cons p rest ih =>
    by_cases hm : isMiddleParam p = true
    · simp only [formatParams, if_pos hm, List.takeWhile_cons, List.dropWhile_cons, hm,
        if_true, List.map_cons, List.flatten, ih]
      simp
    · have hm' : isMiddleParam p = false := by
        cases hx : isMiddleParam p
        · rfl
        · exact absurd hx hm
      simp only [formatParams, if_neg hm, List.takeWhile_cons, List.dropWhile_cons, hm',
        Bool.false_eq_true, if_false, List.map_nil, List.flatten]
      simp

theorem validCommand_eq (command : List Char) :
    validCommand command =
      !(command.isEmpty ||
        (!(command.all Char.isAlpha) && !(command.all isAsciiNumeric))) := by
  unfold validCommand
  cases he : command.isEmpty <;>
    cases ha : command.all Char.isAlpha <;>
      cases hn : command.all isAsciiNumeric <;> simp [he, ha, hn]

/-- C8: for inputs free of CR/LF whose tags and prefix stages succeed, the
command of every accepted parse is the upper-cased first space-delimited
token of the remainder and satisfies the validity condition (non-empty and
all-ASCII-alphabetic or all-ASCII-numeric); and when the upper-cased token
violates it, parse returns `MalformedCommand`. -/
theorem C8_command_token (source s1 s2 : List Char) (tags : TagsList)
    (po : Option IRCPrefix)
    (hnl : (source.any fun c => c == '\r' || c == '\n') = false)
    (h1 : parseTagsStage source = .ok (tags, s1))
    (h2 : parsePfxStage s1 = .ok (po, s2)) :
    (∀ m, IRCMessage.parse source = .ok m →
      m.command = (splitFirst ' ' s2).1.map Char.toUpper ∧
      validCommand m.command = true) ∧
    (validCommand ((splitFirst ' ' s2).1.map Char.toUpper) = false →
      IRCMessage.parse source = .error .MalformedCommand) := by
  match hts : splitFirst ' ' s2 with
  | (tok, restOpt) =>
    rw [show ((tok, restOpt) : List Char × Option (List Char)).1 = tok from rfl]
    constructor
    · intro m hm
      match restOpt, hts with
      | none, hts =>
        rw [parse_cmd_none hnl h1 h2 hts] at hm
        split at hm
        · simp at hm
        · rename_i hvalid
          obtain rfl : m = ⟨tags, po, tok.map Char.toUpper, []⟩ := by
            simpa using hm.symm
          refine ⟨rfl, ?_⟩
          rw [validCommand_eq]
          cases hx : ((tok.map Char.toUpper).isEmpty ||
              (!((tok.map Char.toUpper).all Char.isAlpha) &&
               !((tok.map Char.toUpper).all isAsciiNumeric)))
          · rfl
          · exact absurd hx hvalid
      | some pp, hts =>
        rw [parse_cmd_some hnl h1 h2 hts] at hm
        split at hm
        · simp at hm
        · rename_i hvalid
          match hpp : parseParams pp with
          | .error e => rw [hpp] at hm; simp at hm
          | .ok params =>
            rw [hpp] at hm
            obtain rfl : m = ⟨tags, po, tok.map Char.toUpper, params⟩ := by
              simpa using hm.symm
            refine ⟨rfl, ?_⟩
            rw [validCommand_eq]
            cases hx : ((tok.map Char.toUpper).isEmpty ||
                (!((tok.map Char.toUpper).all Char.isAlpha) &&
                 !((tok.map Char.toUpper).all isAsciiNumeric)))
            · rfl
            · exact absurd hx hvalid
    · intro hinvalid
      rw [validCommand_eq] at hinvalid
      have hcond : ((tok.map Char.toUpper).isEmpty ||
          (!((tok.map Char.toUpper).all Char.isAlpha) &&
           !((tok.map Char.toUpper).all isAsciiNumeric))) = true := by
        cases hx : ((tok.map Char.toUpper).isEmpty ||
            (!((tok.map Char.toUpper).all Char.isAlpha) &&
             !((tok.map Char.toUpper).all isAsciiNumeric)))
        · rw [hx] at hinvalid
          simp at hinvalid
        · rfl
      match restOpt, hts with
      | none, hts =>
        rw [parse_cmd_none hnl h1 h2 hts, if_pos hcond]
      | some pp, hts =>
        rw [parse_cmd_some hnl h1 h2 hts, if_pos hcond]

/-- Witness for C8: `":src P!NG"` passes the tags and prefix stages, its
command token violates the validity condition, and parse rejects it with
`MalformedCommand`. -/
theorem C8_command_token_witness :
    IRCMessage.parse (cs ":src P!NG") = .error .MalformedCommand :=
  (C8_command_token (cs ":src P!NG") (cs ":src P!NG") (cs "P!NG") []
    (some (.HostOnly (cs "src"))) (by decide) (by decide) (by decide)).2 (by decide)

/-- C9: in every reachable configuration whose state is Initializing, the
pending queue holds no inbound-message, ping-tick or pong-check command (nor
any other command produced by the tasks spawned on the transition to Open),
so the Initializing handlers for those events are never invoked. -/
theorem C9_initializing_unreachable {c : LoopConfig} (h : LoopReachable c)
    {s : ConnectionLoopInitializingState} (hst : c.state = .Initializing s) :
    (∀ cmd ∈ c.queue, cmd.fromSpawnedTask = false) ∧
    (∀ mm, (ConnectionLoopCommand.IncomingMessage mm).fromSpawnedTask = true) ∧
    ConnectionLoopCommand.SendPing.fromSpawnedTask = true ∧
    ConnectionLoopCommand.CheckPong.fromSpawnedTask = true := by
  obtain ⟨hinv1, hinv2⟩ := loopInv_reachable h
  have hspf : c.tasksSpawned = false := hinv1 ⟨s, hst⟩
  refine ⟨?_, fun mm => rfl, rfl, rfl⟩
  intro cmd hcmd
  cases hx : cmd.fromSpawnedTask
  · rfl
  · rw [hinv2 cmd hcmd hx] at hspf
    simp at hspf

/-- Witness for C9 at the reachable configuration reached from the start by
enqueuing one send request: the queued command is not a spawned-task
command. -/
theorem C9_initializing_unreachable_witness :
    (ConnectionLoopCommand.SendMessage
      (IRCMessage.new_simple (cs "JOIN") [cs "#chan"]) none).fromSpawnedTask = false :=
  (C9_initializing_unreachable
    (LoopReachable.step LoopReachable.start
      (LoopStep.enqueueSend LoopConfig.start
        (IRCMessage.new_simple (cs "JOIN") [cs "#chan"]) none))
    rfl).1 _ (by simp [LoopConfig.start])

/-- C10: in the Open state, every inbound message that interprets
successfully is forwarded to the pool as the first effect, before any
reaction; in particular a RECONNECT directive yields exactly the
incoming-message notification followed by the connection-closed
notification with the remote-requested-reconnect reason. -/
theorem C10_forward_before_reaction (s : ConnectionLoopOpenState)
    (msg : IRCMessage) (sm : ServerMessage)
    (h : ServerMessage.tryFrom msg = .ok sm) :
    ∃ st' rest,
      ConnectionLoopState.step (.Open s) (.IncomingMessage (some (.ok msg))) =
        some (st', .pool (.IncomingMessage sm) :: rest) ∧
      ∀ m', sm = .Reconnect m' →
        st' = .Closed ⟨.ReconnectCmd⟩ ∧
        rest = [.pool (.StateClosed .ReconnectCmd)] := by
  have hy : ConnectionLoopState.step (.Open s) (.IncomingMessage (some (.ok msg))) =
      some (s.on_incoming_message (some (.ok msg))) := rfl
  rw [hy]
  rw [ConnectionLoopOpenState.on_incoming_message]
  rw [h]
  cases sm with
  | Ping m' =>
    exact ⟨.Open s, [.transportEnqueue
      (IRCMessage.new_simple (cs "PONG") [cs "tmi.twitch.tv"]) none], rfl,
      fun m'' hcontra => ServerMessage.noConfusion hcontra⟩
  | Pong m' =>
    exact ⟨.Open ⟨true⟩, [], rfl, fun m'' hcontra => ServerMessage.noConfusion hcontra⟩
  | Reconnect m' =>
    exact ⟨.Closed ⟨.ReconnectCmd⟩, [.pool (.StateClosed .ReconnectCmd)], rfl,
      fun m'' _ => ⟨rfl, rfl⟩⟩
  | Privmsg m' =>
    exact ⟨.Open s, [], rfl, fun m'' hcontra => ServerMessage.noConfusion hcontra⟩
  | Generic m' =>
    exact ⟨.Open s, [], rfl, fun m'' hcontra => ServerMessage.noConfusion hcontra⟩

/-- Witness for C10 at an inbound RECONNECT directive. -/
theorem C10_forward_before_reaction_witness :
    ∃ st' rest,
      ConnectionLoopState.step (.Open ⟨true⟩)
          (.IncomingMessage (some (.ok (IRCMessage.new_simple (cs "RECONNECT") [])))) =
        some (st', .pool (.IncomingMessage
          (.Reconnect (IRCMessage.new_simple (cs "RECONNECT") []))) :: rest) ∧
      ∀ m', ServerMessage.Reconnect (IRCMessage.new_simple (cs "RECONNECT") []) =
          .Reconnect m' →
        st' = .Closed ⟨.ReconnectCmd⟩ ∧
        rest = [.pool (.StateClosed .ReconnectCmd)] :=
  C10_forward_before_reaction ⟨true⟩ (IRCMessage.new_simple (cs "RECONNECT") [])
    (.Reconnect (IRCMessage.new_simple (cs "RECONNECT") [])) (by decide)
